import Mathlib

/-!
Verification of the paa-miner question-extraction and change-tracking core.

This file gives a shallow embedding, in Lean 4, of the algorithmic core of
the repository:

* `src/worker/src/utils/questions.ts` — `normalizeQuestion`, `hashQuestion`
  (lower-case, punctuation stripping, whitespace collapsing, article
  removal, then `btoa(encodeURIComponent(·)).slice(0, 32)`);
* the tracker's diff engine (`diffPAALists`, and the position-change
  recording filter of `checkKeyword` step 8);
* `normalize.ts` — the Unicode normalizer used by the scraper;
* the scraper (`runSingle`'s breadth-first accordion walk and its
  browser-session lifecycle) and the consensus aggregator (`runConsensus`).

Modelling conventions, stated once here and referenced below:

* JavaScript strings are modelled as `String` / `List Char`; machine
  numbers used by the code are array indices and counters, modelled as
  `Nat` (with `Int` subtraction where the code subtracts).
* Browser / network interaction is nondeterministic input to the
  algorithms; it is modelled by explicit oracle parameters (lists of
  observations, or an environment record of which steps throw).
* JavaScript number arithmetic in the confidence formula is modelled with
  exact rationals.  All values reachable in the code have the form
  `3a/(5k) + 2/(5(1+d))` with `1 ≤ a ≤ k ≤ 3` and `0 ≤ d`; every such
  rational is at distance at least `1/120000` from every half-thousandth
  tie point of `toFixed(3)`, while the double-precision evaluation error
  is below `10⁻¹⁵`, so rounding the double to three decimals agrees with
  rounding the rational and the rational model is exact for this code.
* `String.prototype.localeCompare` with no arguments uses the host
  environment's default collation, which ECMA-402 leaves
  implementation-defined; it is modelled as an explicit collator
  parameter `lc : String → String → Int`, constrained only where a
  theorem needs an ordering law every collator satisfies (transitivity
  and totality of `lc · · ≤ 0`).  `codePointCompare` (code-point order)
  and `rootColl` (a collation ordering the question mark below digits, as
  the default Unicode collation table does) are two admissible instances.
-/

namespace PaaMiner

/-- The character class of the JavaScript regex `\s` (and of `trim`):
space, tab, LF, VT, FF, CR, NBSP, and the Unicode space separators,
line/paragraph separators and BOM. -/
def isJsSpace (c : Char) : Bool :=
  c.toNat = 32 || (9 ≤ c.toNat && c.toNat ≤ 13) || c.toNat = 0xa0 ||
  c.toNat = 0x1680 || (0x2000 ≤ c.toNat && c.toNat ≤ 0x200a) ||
  c.toNat = 0x2028 || c.toNat = 0x2029 || c.toNat = 0x202f ||
  c.toNat = 0x205f || c.toNat = 0x3000 || c.toNat = 0xfeff

/-- The character class of the JavaScript regex `\w`: ASCII letters,
digits and underscore. -/
def isWordChar (c : Char) : Bool :=
  (97 ≤ c.toNat && c.toNat ≤ 122) || (65 ≤ c.toNat && c.toNat ≤ 90) ||
  (48 ≤ c.toNat && c.toNat ≤ 57) || c.toNat = 95

/-- Drop `\s` characters from both ends of a character list; the model of
`String.prototype.trim`. -/
def trimSp (l : List Char) : List Char :=
  ((l.dropWhile isJsSpace).reverse.dropWhile isJsSpace).reverse

/-- Model of `String.prototype.trim` on `String`. -/
def jsTrimString (s : String) : String :=
  String.mk (trimSp s.data)

/-- Single lower-case step of `String.prototype.toLowerCase`, modelled on
the Basic Latin range (all inputs appearing in the theorems below are
ASCII): upper-case ASCII letters map to the corresponding lower-case
letter, everything else is unchanged. -/
def jsToLower (c : Char) : Char :=
  if 65 ≤ c.toNat && c.toNat ≤ 90 then Char.ofNat (c.toNat + 32) else c

/-- Auxiliary recursion for `collapseWs`: the flag records whether the
previous character belonged to a whitespace run whose single replacement
space has already been emitted. -/
def collapseWsAux : Bool → List Char → List Char
  | _, [] => []
  | true, c :: cs =>
    if isJsSpace c then collapseWsAux true cs
    else c :: collapseWsAux false cs
  | false, c :: cs =>
    if isJsSpace c then ' ' :: collapseWsAux true cs
    else c :: collapseWsAux false cs

/-- Model of `.replace(/\s+/g, ' ')`: every maximal run of `\s` characters
is replaced by one space. -/
def collapseWs (l : List Char) : List Char :=
  collapseWsAux false l

/-- The three article tokens removed by `normalizeQuestion`. -/
def isArticleRun (run : List Char) : Bool :=
  run = ['t', 'h', 'e'] || run = ['a'] || run = ['a', 'n']

/-- Auxiliary recursion for `stripArticles`, accumulating the current
maximal `\w` run.  The regex `\b(the|a|an)\b` matches exactly the maximal
word-character runs equal to one of the three articles (a shorter match
inside a longer run fails the trailing `\b`), so `/\b(the|a|an)\b/g`
replacement by the empty string deletes exactly those runs. -/
def stripArticlesGo : List Char → List Char → List Char
  | run, [] => if isArticleRun run then [] else run
  | run, c :: cs =>
    if isWordChar c then stripArticlesGo (run ++ [c]) cs
    else (if isArticleRun run then [] else run) ++ c :: stripArticlesGo [] cs

/-- Model of `.replace(/\b(the|a|an)\b/g, '')`. -/
def stripArticles (l : List Char) : List Char :=
  stripArticlesGo [] l

/-- The character class kept by the punctuation-removal step of
`normalizeQuestion` (`.replace(/[^\w\s']/g, '')`): word characters,
whitespace, and the apostrophe. -/
def keepCls (c : Char) : Bool :=
  isWordChar c || isJsSpace c || c.toNat = 39

/-- Character-list core of `normalizeQuestion` from
`src/worker/src/utils/questions.ts`: lower-case, trim, remove punctuation
except apostrophes (`.replace(/[^\w\s']/g, '')` — removal, not
replacement by space), collapse whitespace, remove the articles, trim. -/
def normalizeQuestionL (l : List Char) : List Char :=
  trimSp (stripArticles (collapseWs ((trimSp (l.map jsToLower)).filter keepCls)))

/-- `normalizeQuestion` of `src/worker/src/utils/questions.ts`. -/
def normalizeQuestion (s : String) : String :=
  String.mk (normalizeQuestionL s.data)

/-- Characters left unescaped by `encodeURIComponent`: ASCII
alphanumerics and `- _ . ! ~ * ' ( )`. -/
def isUriUnreserved (c : Char) : Bool :=
  (97 ≤ c.toNat && c.toNat ≤ 122) || (65 ≤ c.toNat && c.toNat ≤ 90) ||
  (48 ≤ c.toNat && c.toNat ≤ 57) ||
  c = '-' || c.toNat = 95 || c = '.' || c = '!' || c.toNat = 126 ||
  c = '*' || c.toNat = 39 || c = '(' || c = ')'

/-- Upper-case hexadecimal digit, as produced by `encodeURIComponent`. -/
def hexDigit (n : Nat) : Char :=
  if n < 10 then Char.ofNat (48 + n) else Char.ofNat (65 + (n - 10))

/-- UTF-8 byte sequence of a code point, used by `encodeURIComponent` for
escaped characters. -/
def utf8Bytes (n : Nat) : List Nat :=
  if n < 0x80 then [n]
  else if n < 0x800 then [0xc0 + n / 64, 0x80 + n % 64]
  else if n < 0x10000 then
    [0xe0 + n / 4096, 0x80 + n / 64 % 64, 0x80 + n % 64]
  else [0xf0 + n / 262144, 0x80 + n / 4096 % 64, 0x80 + n / 64 % 64,
        0x80 + n % 64]

/-- Percent-escape of one byte. -/
def percentByte (b : Nat) : List Char :=
  ['%', hexDigit (b / 16), hexDigit (b % 16)]

/-- Model of `encodeURIComponent` on a character list. -/
def encodeURIComponentL (l : List Char) : List Char :=
  l.flatMap (fun c =>
    if isUriUnreserved c then [c] else (utf8Bytes c.toNat).flatMap percentByte)

/-- The base64 alphabet used by `btoa`. -/
def b64Char (n : Nat) : Char :=
  (['A', 'B', 'C', 'D', 'E', 'F', 'G', 'H', 'I', 'J', 'K', 'L', 'M',
    'N', 'O', 'P', 'Q', 'R', 'S', 'T', 'U', 'V', 'W', 'X', 'Y', 'Z',
    'a', 'b', 'c', 'd', 'e', 'f', 'g', 'h', 'i', 'j', 'k', 'l', 'm',
    'n', 'o', 'p', 'q', 'r', 's', 't', 'u', 'v', 'w', 'x', 'y', 'z',
    '0', '1', '2', '3', '4', '5', '6', '7', '8', '9', '+', '/']).getD n 'A'

/-- Standard base64 encoding of a byte list with `=` padding; the model of
`btoa` (whose Latin-1 input bytes are the character codes). -/
def b64Encode : List Nat → List Char
  | [] => []
  | [b0] => [b64Char (b0 / 4), b64Char (b0 % 4 * 16), '=', '=']
  | [b0, b1] =>
    [b64Char (b0 / 4), b64Char (b0 % 4 * 16 + b1 / 16),
     b64Char (b1 % 16 * 4), '=']
  | b0 :: b1 :: b2 :: rest =>
    b64Char (b0 / 4) :: b64Char (b0 % 4 * 16 + b1 / 16) ::
    b64Char (b1 % 16 * 4 + b2 / 64) :: b64Char (b2 % 64) :: b64Encode rest

/-- Model of `btoa` on a character list of Latin-1 characters. -/
def btoaL (l : List Char) : List Char :=
  b64Encode (l.map Char.toNat)

/-- `hashQuestion` of `src/worker/src/utils/questions.ts`:
`btoa(encodeURIComponent(normalizeQuestion(question))).slice(0, 32)`. -/
def hashQuestion (question : String) : String :=
  String.mk ((btoaL (encodeURIComponentL (normalizeQuestion question).data)).take 32)

/-- One previously persisted question row, as read by `checkKeyword`
(`question`, `question_hash`). -/
structure PrevQ where
  question : String
  hash : String
deriving DecidableEq, Repr

/-- One entry of the current question list built by `checkKeyword` step 3:
question text, its hash, and its index in the freshly fetched list. -/
structure CurrQ where
  question : String
  hash : String
  position : Nat
deriving DecidableEq, Repr

/-- One element of `DiffResult.positionChanges`. -/
structure PosChange where
  question : String
  hash : String
  oldPosition : Nat
  newPosition : Nat
deriving DecidableEq, Repr

/-- The `DiffResult` record of the tracker. -/
structure DiffResult where
  added : List CurrQ
  removed : List PrevQ
  positionChanges : List PosChange
deriving DecidableEq, Repr

/-- `diffPAALists` of the tracker: `added` are current entries whose hash
is absent from the previous list, `removed` are previous entries whose
hash is absent from the current list, and `positionChanges` collects every
retained current entry whose previous index (`findIndex` on hash) differs
from its current `position` field.  The `Map`s the code builds are used
only through `has`, which is membership of the hash. -/
def diffPAALists (previous : List PrevQ) (current : List CurrQ) : DiffResult where
  added := current.filter (fun q => !(previous.any (fun p => p.hash == q.hash)))
  removed := previous.filter (fun p => !(current.any (fun c => c.hash == p.hash)))
  positionChanges := current.filterMap (fun curr =>
    if previous.any (fun p => p.hash == curr.hash) then
      let prevIndex := previous.findIdx (fun p => p.hash == curr.hash)
      if prevIndex ≠ curr.position then
        some ⟨curr.question, curr.hash, prevIndex, curr.position⟩
      else none
    else none)

/-- Step 8 of `checkKeyword`: of the diff's `positionChanges`, only those
with `Math.abs(oldPosition - newPosition) >= 2` are recorded as
`position_change` rows in `paa_changes`. -/
def recordedPositionChanges (previous : List PrevQ) (current : List CurrQ) :
    List PosChange :=
  (diffPAALists previous current).positionChanges.filter
    (fun m => 2 ≤ ((m.oldPosition : Int) - (m.newPosition : Int)).natAbs)

/-- Auxiliary recursion for `mkCurrent`, carrying the running index. -/
def mkCurrentAux (i : Nat) : List String → List CurrQ
  | [] => []
  | q :: qs => ⟨q, hashQuestion q, i⟩ :: mkCurrentAux (i + 1) qs

/-- The current list built in `checkKeyword` step 3 from the freshly
fetched question texts: each text is paired with `hashQuestion` of itself
and its index as `position`. -/
def mkCurrent (qs : List String) : List CurrQ :=
  mkCurrentAux 0 qs

/-- The concrete character class of the quote-folding regex in
`normalize.ts`: `"` (the class in the source lists it three times), `«`,
`»`, `„` and the apostrophe. -/
def isQuoteChar (c : Char) : Bool :=
  c.toNat = 34 || c.toNat = 171 || c.toNat = 187 || c.toNat = 8222 ||
  c.toNat = 39

/-- Abstract model of the Unicode-dependent character primitives used by
`normalize.ts`: `String.prototype.normalize('NFKC')` (modelled character
by character, a code point mapping to its compatibility decomposition),
`toLowerCase`, and the regex classes `\p{L}` and `\p{N}`.  The theorems
below take as hypotheses the facts about these tables that the Unicode
standard provides (idempotence of lowering, NFKC-fixedness of lowered
NFKC output characters). -/
structure CharModel where
  nfkc : Char → List Char
  lower : Char → Char
  isLetter : Char → Bool
  isNumber : Char → Bool

/-- The class kept (as itself) by `.replace(/[^\p{L}\p{N}\s?]/gu, ' ')`:
letters, numbers, whitespace and the question mark. -/
def isKeepM (M : CharModel) (c : Char) : Bool :=
  M.isLetter c || M.isNumber c || isJsSpace c || c.toNat = 63

/-- The quote-folding step `.replace(/[""«»„"']/g, '"')` of
`normalize.ts`. -/
def foldQuote (c : Char) : Char :=
  if isQuoteChar c then Char.ofNat 34 else c

/-- The character-class step `.replace(/[^\p{L}\p{N}\s?]/gu, ' ')` of
`normalize.ts`: kept characters stay, every other character becomes a
space. -/
def keepOrSpace (M : CharModel) (c : Char) : Char :=
  if isKeepM M c then c else ' '

/-- `normalize` of `normalize.ts`, over a character model:
NFKC-normalize, lower-case, fold quote variants to `"`, replace every
character outside letters/numbers/whitespace/question-mark by a space,
collapse whitespace runs, trim. -/
def normalize (M : CharModel) (s : List Char) : List Char :=
  trimSp (collapseWs
    (List.map (keepOrSpace M)
      (List.map foldQuote (List.map M.lower (s.flatMap M.nfkc)))))

/-- One QuestionItem of a single run (`PAAItem` in `types.ts`). -/
structure PAAItem where
  raw : String
  norm : String
  depth : Nat
  parent : Option String
  domPath : String
  orderIdx : Nat
deriving DecidableEq, Repr

/-- One accordion control as observed by `getAccordionItems` at one
dequeue step of the walk, together with whether the later
`page.$(xpath-of-its-text)` lookup finds a clickable control
(`btnFound`); the page is external input, so these observations are the
oracle of the model. -/
structure ObsItem where
  question : String
  orderIdx : Nat
  path : String
  btnFound : Bool
deriving DecidableEq, Repr

/-- One queue entry of the breadth-first walk in `runSingle`. -/
structure QNode where
  path : String
  depth : Nat
  parent : Option String
deriving DecidableEq, Repr

/-- The mutable state of the walk: the `seen` set of normalized texts, the
recorded `items`, and the remaining queue. -/
structure BfsState where
  seen : List String
  items : List PAAItem
  queue : List QNode
deriving Repr

/-- Body of the `for (const it of acc)` loop of `runSingle`: trim the
text, normalize it (`nf` is the normalizer, `normalize` of
`normalize.ts` in the code), record the item at the current node's depth
and parent if its normalized form is unseen, then—if the node is above
the requested depth, the node budget is not yet reached, and the control
was found—click it and enqueue the next level. -/
def stepItem (nf : String → String) (depthReq maxNodes : Nat) (node : QNode)
    (st : BfsState) (ob : ObsItem) : BfsState :=
  let raw := jsTrimString ob.question
  let norm := nf raw
  let st1 :=
    if norm ∈ st.seen then st
    else { st with
           seen := norm :: st.seen,
           items := st.items ++
             [⟨raw, norm, node.depth, node.parent, ob.path, ob.orderIdx⟩] }
  if node.depth < depthReq ∧ st1.items.length < maxNodes ∧ ob.btnFound = true then
    { st1 with queue := st1.queue ++ [⟨ob.path, node.depth + 1, some norm⟩] }
  else st1

/-- The `while (queue.length)` loop of `runSingle`.  One observation batch
(the `getAccordionItems` result) is consumed per dequeued node; an
exhausted observation list models the `maxRuntimeMs` cutoff checked
before each dequeue.  After each batch the loop stops if the recorded
item count has reached `maxNodes`. -/
def bfsLoop (nf : String → String) (depthReq maxNodes : Nat) :
    List (List ObsItem) → List QNode → List String → List PAAItem → List PAAItem
  | _, [], _, items => items
  | [], _ :: _, _, items => items
  | batch :: obsRest, node :: qRest, seen, items =>
    let st := batch.foldl (stepItem nf depthReq maxNodes node) ⟨seen, items, qRest⟩
    if maxNodes ≤ st.items.length then st.items
    else bfsLoop nf depthReq maxNodes obsRest st.queue st.seen st.items

/-- The item list produced by one `runSingle` invocation whose page
behaviour is described by `obs`: the walk starts from the root queue entry
`{path: '', depth: 0}` with empty `seen` set and item list. -/
def bfsRun (nf : String → String) (depthReq maxNodes : Nat)
    (obs : List (List ObsItem)) : List PAAItem :=
  bfsLoop nf depthReq maxNodes obs [⟨"", 0, none⟩] [] []

/-- The clamp `Math.min(Math.max(params.k || 1, 1), 3)` applied by
`runConsensus` to the requested run count. -/
def clampK (k : Nat) : Nat :=
  Nat.min (Nat.max k 1) 3

/-- First-occurrence deduplication, the key order of a JavaScript `Map`
filled by insertion. -/
def dedupFirstAux : List String → List String → List String
  | _, [] => []
  | seenKeys, x :: xs =>
    if x ∈ seenKeys then dedupFirstAux seenKeys xs
    else x :: dedupFirstAux (x :: seenKeys) xs

/-- Keys of a JavaScript `Map` built by inserting the given list in order:
the list with later duplicates removed. -/
def dedupFirst (l : List String) : List String :=
  dedupFirstAux [] l

/-- `topString` of the scraper: the most frequent string of the array,
ties broken in favour of the first-encountered string (the code sorts the
`Map` entries, which are in first-occurrence order, with the stable
`Array.prototype.sort` by descending count and takes the head).  Empty
array gives the empty string. -/
def topString (arr : List String) : String :=
  match dedupFirst arr with
  | [] => ""
  | k :: ks => ks.foldl (fun best x => if arr.count best < arr.count x then x else best) k

/-- Minimum of a number list as computed by `Math.min(...xs)` on the
nonempty lists the aggregator feeds it. -/
def minNatList : List Nat → Nat
  | [] => 0
  | x :: xs => xs.foldl Nat.min x

/-- One merged entry of the consensus map before filtering. -/
structure ConsensusEntry where
  norm : String
  raw : String
  depth : Nat
  orderIdx : Nat
  parent : Option String
  appearances : Nat
deriving DecidableEq, Repr

/-- The map-building and aggregation steps of `runConsensus`: occurrences
of all runs are grouped under their normalized key in first-occurrence
order; per key, `appearances` is the number of grouped occurrences,
`raw` the most frequent surface form, `depth` and `orderIdx` the minima,
and `parent` the most frequent nonempty parent (or none). -/
def aggregate (runs : List (List PAAItem)) : List ConsensusEntry :=
  let flat := runs.flatten
  (dedupFirst (flat.map (fun it => it.norm))).map (fun n =>
    let occ := flat.filter (fun it => it.norm == n)
    let ps := (occ.filterMap (fun it => it.parent)).filter (fun s => s ≠ "")
    let t := topString ps
    { norm := n
      raw := topString (occ.map (fun it => it.raw))
      depth := minNatList (occ.map (fun it => it.depth))
      orderIdx := minNatList (occ.map (fun it => it.orderIdx))
      parent := if t = "" then none else some t
      appearances := occ.length })

/-- The quorum threshold of `runConsensus`:
`params.strict ? Math.min(k, 2) : 1`. -/
def thresholdOf (strict : Bool) (k : Nat) : Nat :=
  if strict then Nat.min k 2 else 1

/-- Rounding to three decimal places, the rational model of
`Number(x.toFixed(3))` (ties round up, as in `toFixed` for positive
arguments; see the header note on exactness of the rational model). -/
def round3 (q : ℚ) : ℚ :=
  (round (q * 1000) : ℤ) / 1000

/-- The confidence formula of `runConsensus`:
`0.6 * (appearances / k) + 0.4 * (1 / (1 + depth))`, rounded to three
decimals. -/
def confidenceOf (k appearances depth : Nat) : ℚ :=
  round3 (3 / 5 * ((appearances : ℚ) / (k : ℚ)) +
    2 / 5 * (1 / (1 + (depth : ℚ))))

/-- One element of the final consensus list (`ConsensusPAAResult` of
`types.ts`, with `question` the representative raw text). -/
structure ConsensusPAAResult where
  question : String
  norm : String
  depth : Nat
  parent : Option String
  appearances : Nat
  confidence : ℚ
deriving DecidableEq, Repr

/-- The comparator of the final `.sort` of `runConsensus` as a boolean
order: descending `appearances`, then ascending `depth`, then ascending
normalized text under `localeCompare`.  `lc` is the three-way string
comparison `a.localeCompare(b)`: its exact order is locale- and
implementation-defined (ECMA-402 leaves the collation to the ICU
tables), so — like the page behaviour elsewhere in this file — it is an
environment input of the model; an element sorts no later than another
when the comparison is at most zero. -/
def consensusLe (lc : String → String → Int) (a b : ConsensusPAAResult) : Bool :=
  if a.appearances ≠ b.appearances then decide (b.appearances < a.appearances)
  else if a.depth ≠ b.depth then decide (a.depth < b.depth)
  else decide (lc a.norm b.norm ≤ 0)

/-- The code-point collator: one admissible `localeCompare` model,
comparing by the code-point order of the strings; used to instantiate
the environment at concrete inputs. -/
def codePointCompare (a b : String) : Int :=
  if a < b then -1 else if b < a then 1 else 0

/-- The code-point collator sorts-ascending exactly by the string
order. -/
theorem codePointCompare_le (a b : String) :
    codePointCompare a b ≤ 0 ↔ a ≤ b := by
  unfold codePointCompare
  split_ifs with h1 h2
  · exact iff_of_true (by norm_num) (le_of_lt h1)
  · exact iff_of_false (by norm_num) (not_le.2 h2)
  · exact iff_of_true le_rfl (not_lt.1 h2)

/-- `runConsensus` after its K scraping runs: aggregate the run results,
apply the quorum filter, attach confidences, and sort with the
comparator over the environment's collation `lc`.  The `k` argument is
the clamped run count; the code guarantees `runs.length = k`. -/
def runConsensusModel (lc : String → String → Int) (k : Nat) (strict : Bool)
    (runs : List (List PAAItem)) : List ConsensusPAAResult :=
  (((aggregate runs).filter (fun e => thresholdOf strict k ≤ e.appearances)).map
    (fun e =>
      { question := e.raw, norm := e.norm, depth := e.depth, parent := e.parent,
        appearances := e.appearances,
        confidence := confidenceOf k e.appearances e.depth })).mergeSort (consensusLe lc)

/-- Environment of one `runSingle` invocation, recording which of its
awaited steps throw.  `launchErr`: `chromium.launch` fails (the `browser`
variable stays null).  `setupErr`: some step between the launch and the
container search throws (`newContext`, `newPage`, `goto`, the consent
handling, or the container search itself).  `containerFound`: whether
`findPAAContainer` returns a container.  `notFoundShotErr` / `walkErr`:
a step of the not-found branch (full-page screenshot) resp. of the found
branch (evidence capture, walk, final screenshot) throws.  `close1Err`:
the `await browser.close()` of the taken return path throws.
`close2Err`: the `browser.close()` issued inside the `catch` block
throws (that call carries `.catch(() => {})`). -/
structure RunEnv where
  launchErr : Option String
  setupErr : Option String
  containerFound : Bool
  notFoundShotErr : Option String
  walkErr : Option String
  close1Err : Option String
  close2Err : Option String
deriving DecidableEq, Repr

/-- Control-flow skeleton of `runSingle` for the session lifecycle: the
result is the outcome seen by the caller (`Except.ok b` with `b` the
container-found flag, or the propagated error) paired with the list of
close attempts issued, `true` marking an attempt that succeeded.  The
whole body sits in one `try`; the `catch` block closes the browser when
it is non-null, swallowing a failure of that close, and rethrows the
caught error — so an error thrown by the first close lands in the
`catch` block and is rethrown. -/
def runSingleModel (env : RunEnv) : Except String Bool × List Bool :=
  match env.launchErr with
  | some e => (Except.error e, [])
  | none =>
    match env.setupErr with
    | some e => (Except.error e, [env.close2Err.isNone])
    | none =>
      if env.containerFound = false then
        match env.notFoundShotErr with
        | some e => (Except.error e, [env.close2Err.isNone])
        | none =>
          match env.close1Err with
          | some e => (Except.error e, [false, env.close2Err.isNone])
          | none => (Except.ok false, [true])
      else
        match env.walkErr with
        | some e => (Except.error e, [env.close2Err.isNone])
        | none =>
          match env.close1Err with
          | some e => (Except.error e, [false, env.close2Err.isNone])
          | none => (Except.ok true, [true])

/-! ### C9 — browser-session lifecycle of `runSingle` -/

/-- C9, counterexample.  The claim states that a failure of the close
operation is swallowed and never propagated to the caller.  In the code
the `await browser.close()` of the normal return path is inside the
`try`, so its error is caught by the `catch` block and rethrown: in an
environment where every step succeeds, the container is found, and the
first close fails, the caller receives exactly that close error. -/
theorem runSingle_close_error_reaches_caller :
    (runSingleModel ⟨none, none, true, none, none, some ("close failed"), none⟩).1 =
      Except.error ("close failed") := rfl

/-- C9, amended.  After a successful launch, `runSingle` attempts to
close the browser on every exit path — normal return, container-not-found
return, and exception; a close failure inside the `catch` handler is
swallowed (the error propagated from an exception path is the original
body error, whatever the handler's close does); but a failure of the
close on the normal or not-found return path is rethrown and does
propagate to the caller. -/
theorem runSingle_close_on_every_path (env : RunEnv)
    (hl : env.launchErr = none) :
    (runSingleModel env).2 ≠ [] ∧
    (∀ e, env.setupErr = some e → (runSingleModel env).1 = Except.error e) ∧
    (∀ e, env.setupErr = none → env.containerFound = true →
      env.walkErr = some e → (runSingleModel env).1 = Except.error e) ∧
    (∀ e, env.setupErr = none → env.containerFound = false →
      env.notFoundShotErr = none → env.close1Err = some e →
      (runSingleModel env).1 = Except.error e) := by
  obtain ⟨l, s, cf, nf, w, c1, c2⟩ := env
  cases hl
  refine ⟨?_, ?_, ?_, ?_⟩ <;>
    cases s <;> cases cf <;> cases nf <;> cases w <;> cases c1 <;>
    simp_all [runSingleModel]

/-- C9, witness for the amended theorem at a concrete environment. -/
theorem runSingle_close_on_every_path_witness :
    (runSingleModel ⟨none, some ("boom"), true, none, none, none, some ("close also failed")⟩).2 ≠ [] ∧
    (runSingleModel ⟨none, some ("boom"), true, none, none, none, some ("close also failed")⟩).1 =
      Except.error ("boom") := by
  have h := runSingle_close_on_every_path
    ⟨none, some ("boom"), true, none, none, none, some ("close also failed")⟩ rfl
  exact ⟨h.1, h.2.1 ("boom") rfl⟩

/-! ### C8 — diff of identical and of disjoint question sets -/

/-- C8.  When the previous and current lists carry the same set of hashes,
`diffPAALists` reports nothing added and nothing removed; when the two
lists (of length N each) share no hash at all, every current entry is
added, every previous entry is removed, and no position change is
reported. -/
theorem diff_identical_and_disjoint :
    (∀ (previous : List PrevQ) (current : List CurrQ),
      (∀ h : String, (∃ p ∈ previous, p.hash = h) ↔ (∃ c ∈ current, c.hash = h)) →
      (diffPAALists previous current).added = [] ∧
      (diffPAALists previous current).removed = []) ∧
    (∀ (previous : List PrevQ) (current : List CurrQ) (N : Nat),
      (∀ p ∈ previous, ∀ c ∈ current, p.hash ≠ c.hash) →
      previous.length = N → current.length = N →
      (diffPAALists previous current).added.length = N ∧
      (diffPAALists previous current).removed.length = N ∧
      (diffPAALists previous current).positionChanges = []) := by
  constructor
  · intro previous current heq
    constructor
    · apply List.filter_eq_nil_iff.2
      intro q hq
      have : previous.any (fun p => p.hash == q.hash) = true := by
        rcases (heq q.hash).2 ⟨q, hq, rfl⟩ with ⟨p, hp, hph⟩
        exact List.any_eq_true.2 ⟨p, hp, beq_iff_eq.2 hph⟩
      simp [this]
    · apply List.filter_eq_nil_iff.2
      intro p hp
      have : current.any (fun c => c.hash == p.hash) = true := by
        rcases (heq p.hash).1 ⟨p, hp, rfl⟩ with ⟨c, hc, hch⟩
        exact List.any_eq_true.2 ⟨c, hc, beq_iff_eq.2 hch⟩
      simp [this]
  · intro previous current N hdisj hlp hlc
    have hpc : ∀ c ∈ current, previous.any (fun p => p.hash == c.hash) = false := by
      intro c hc
      apply List.any_eq_false.2
      intro p hp
      exact fun hb => hdisj p hp c hc (beq_iff_eq.1 hb)
    have hcp : ∀ p ∈ previous, current.any (fun c => c.hash == p.hash) = false := by
      intro p hp
      apply List.any_eq_false.2
      intro c hc
      exact fun hb => hdisj p hp c hc (beq_iff_eq.1 hb).symm
    refine ⟨?_, ?_, ?_⟩
    · have : (diffPAALists previous current).added = current := by
        apply List.filter_eq_self.2
        intro c hc
        simp [hpc c hc]
      rw [this, hlc]
    · have : (diffPAALists previous current).removed = previous := by
        apply List.filter_eq_self.2
        intro p hp
        simp [hcp p hp]
      rw [this, hlp]
    · apply List.filterMap_eq_nil_iff.2
      intro c hc
      simp [diffPAALists, hpc c hc]

/-- C8, witness: one identical pair and one disjoint pair of lists. -/
theorem diff_identical_and_disjoint_witness :
    ((diffPAALists [⟨"q1", "h1"⟩] [⟨"q1", "h1", 0⟩]).added = [] ∧
      (diffPAALists [⟨"q1", "h1"⟩] [⟨"q1", "h1", 0⟩]).removed = []) ∧
    ((diffPAALists [⟨"qa", "ha"⟩] [⟨"qb", "hb", 0⟩]).added.length = 1 ∧
      (diffPAALists [⟨"qa", "ha"⟩] [⟨"qb", "hb", 0⟩]).removed.length = 1 ∧
      (diffPAALists [⟨"qa", "ha"⟩] [⟨"qb", "hb", 0⟩]).positionChanges = []) := by
  constructor
  · exact diff_identical_and_disjoint.1 [⟨"q1", "h1"⟩] [⟨"q1", "h1", 0⟩] (by intro h; simp)
  · exact diff_identical_and_disjoint.2 [⟨"qa", "ha"⟩] [⟨"qb", "hb", 0⟩] 1
      (by decide) rfl rfl

/-! ### C2 — position-change threshold of the diff cycle -/

/-- The per-entry body of the `positionChanges` loop of `diffPAALists`,
named so the filter structure can be reasoned about. -/
def posChangeOf (previous : List PrevQ) (curr : CurrQ) : Option PosChange :=
  if previous.any (fun p => p.hash == curr.hash) then
    if previous.findIdx (fun p => p.hash == curr.hash) ≠ curr.position then
      some ⟨curr.question, curr.hash,
        previous.findIdx (fun p => p.hash == curr.hash), curr.position⟩
    else none
  else none

/-- The recording condition of `checkKeyword` step 8:
`Math.abs(oldPosition - newPosition) >= 2`. -/
def bigDelta (m : PosChange) : Bool :=
  decide (2 ≤ ((m.oldPosition : Int) - (m.newPosition : Int)).natAbs)

/-- The recorded position changes are the per-entry results of
`diffPAALists`, kept when the delta is at least two; definitional
restatement of `recordedPositionChanges`. -/
theorem recorded_eq (previous : List PrevQ) (current : List CurrQ) :
    recordedPositionChanges previous current =
      (current.filterMap (posChangeOf previous)).filter bigDelta := rfl

/-- Entries of the diff whose source entry does not carry hash `h` do not
carry hash `h` either, so they vanish under the hash filter. -/
theorem filter_hash_posChange_nil (previous : List PrevQ) (L : List CurrQ)
    (h : String) (hL : ∀ x ∈ L, (x.hash == h) = false) :
    (L.filterMap (posChangeOf previous)).filter
      (fun m => (m.hash == h) && bigDelta m) = [] := by
  apply List.filter_eq_nil_iff.2
  intro m hm
  rcases List.mem_filterMap.1 hm with ⟨x, hx, hfx⟩
  have hmh : m.hash = x.hash := by
    unfold posChangeOf at hfx
    split_ifs at hfx
    injection hfx with h2
    exact congrArg PosChange.hash h2.symm
  simp [hmh, hL x hx]

/-- C2.  In a diff cycle, consider a retained question: its hash occurs in
the previous list, and it occurs exactly once in the current list, at
current index `A.length` (the current list is `A ++ c :: B`, the other
entries carrying different hashes).  Let `old` be its previous index
(`findIndex` on the hash).  Among the `position_change` rows recorded in
step 8 of `checkKeyword`, the ones carrying this hash are: none when the
absolute delta between `old` and the current index is 0 or 1, and exactly
one — carrying the old and the new position — when the delta is ≥ 2. -/
theorem positionChange_recorded_iff_delta_ge_two
    (previous : List PrevQ) (A B : List CurrQ) (c : CurrQ)
    (hA : ∀ x ∈ A, (x.hash == c.hash) = false)
    (hB : ∀ x ∈ B, (x.hash == c.hash) = false)
    (hret : previous.any (fun p => p.hash == c.hash) = true)
    (hp : c.position = A.length) :
    (recordedPositionChanges previous (A ++ c :: B)).filter
        (fun m => m.hash == c.hash) =
      (if 2 ≤ ((previous.findIdx (fun p => p.hash == c.hash) : Int) -
          (A.length : Int)).natAbs
       then [⟨c.question, c.hash, previous.findIdx (fun p => p.hash == c.hash),
             A.length⟩]
       else []) := by
  rw [← hp]
  have hmerge :
      (recordedPositionChanges previous (A ++ c :: B)).filter
        (fun m => m.hash == c.hash) =
      ((A ++ c :: B).filterMap (posChangeOf previous)).filter
        (fun m => (m.hash == c.hash) && bigDelta m) := by
    rw [recorded_eq, List.filter_filter]
  rw [hmerge, List.filterMap_append, List.filter_append,
    filter_hash_posChange_nil previous A c.hash hA, List.nil_append]
  by_cases hdist : 2 ≤ ((previous.findIdx (fun p => p.hash == c.hash) : Int) -
      (c.position : Int)).natAbs
  · have hne : previous.findIdx (fun p => p.hash == c.hash) ≠ c.position := by
      intro hcontra
      rw [hcontra] at hdist
      simp at hdist
    have hfc : posChangeOf previous c =
        some ⟨c.question, c.hash,
          previous.findIdx (fun p => p.hash == c.hash), c.position⟩ := by
      unfold posChangeOf
      rw [if_pos hret, if_pos hne]
    rw [List.filterMap_cons_some hfc, if_pos hdist, List.filter_cons_of_pos
      (by simp [bigDelta, hdist]),
      filter_hash_posChange_nil previous B c.hash hB]
  · rw [if_neg hdist]
    by_cases heq : previous.findIdx (fun p => p.hash == c.hash) = c.position
    · have hfc : posChangeOf previous c = none := by
        unfold posChangeOf
        rw [if_pos hret, if_neg (by simpa using heq)]
      rw [List.filterMap_cons_none hfc,
        filter_hash_posChange_nil previous B c.hash hB]
    · have hfc : posChangeOf previous c =
          some ⟨c.question, c.hash,
            previous.findIdx (fun p => p.hash == c.hash), c.position⟩ := by
        unfold posChangeOf
        rw [if_pos hret, if_pos heq]
      rw [List.filterMap_cons_some hfc, List.filter_cons_of_neg
        (by simp [bigDelta, hdist]),
        filter_hash_posChange_nil previous B c.hash hB]

/-- C2, witness: previous list `[h0, h1]`; in a first application the
question of hash `h0` moved to current index 2 (delta 2, one record), in
a second it moved to current index 1 (delta 1, no record). -/
theorem positionChange_recorded_iff_delta_ge_two_witness :
    (recordedPositionChanges [⟨"q0", "h0"⟩, ⟨"q1", "h1"⟩]
        ([⟨"q1", "h1", 0⟩, ⟨"q2", "h2", 1⟩] ++ ⟨"q0", "h0", 2⟩ :: [])).filter
        (fun m => m.hash == "h0") = [⟨"q0", "h0", 0, 2⟩] ∧
    (recordedPositionChanges [⟨"q0", "h0"⟩, ⟨"q1", "h1"⟩]
        ([⟨"q1", "h1", 0⟩] ++ ⟨"q0", "h0", 1⟩ :: [])).filter
        (fun m => m.hash == "h0") = [] := by
  constructor
  · rw [positionChange_recorded_iff_delta_ge_two
      [⟨"q0", "h0"⟩, ⟨"q1", "h1"⟩]
      [⟨"q1", "h1", 0⟩, ⟨"q2", "h2", 1⟩] [] ⟨"q0", "h0", 2⟩
      (by decide) (by decide) (by decide) (by decide)]
    decide
  · rw [positionChange_recorded_iff_delta_ge_two
      [⟨"q0", "h0"⟩, ⟨"q1", "h1"⟩]
      [⟨"q1", "h1", 0⟩] [] ⟨"q0", "h0", 1⟩
      (by decide) (by decide) (by decide) (by decide)]
    decide

/-! ### C10 — hash identification of question-text variants -/

/-- C10, counterexample.  The claim states that two texts differing only
in occurrences of the articles the/a/an hash identically.  But
`normalizeQuestion` removes the article tokens after whitespace has been
collapsed, leaving both flanking spaces in place, so the text with the
article keeps a double space that the text without it never had: the two
normalized forms — and hence the 32-character hash prefixes, which
already differ inside the first encoded characters — are different. -/
theorem hashQuestion_not_article_invariant :
    hashQuestion ("what is the cat") ≠ hashQuestion ("what is cat") := by
  decide

/-- The canonical form that `hashQuestion` depends on: lower-case, keep
only word characters, whitespace and apostrophes, collapse whitespace
runs, trim.  `normalizeQuestionL` is article removal and a final trim
applied to this form (`normalizeQuestionL_eq`). -/
def qCanonL (l : List Char) : List Char :=
  trimSp (collapseWs ((l.map jsToLower).filter keepCls))

/-- Canonical form of a string. -/
def qCanon (s : String) : List Char :=
  qCanonL s.data

/-- Whitespace characters are not word characters. -/
theorem space_not_word (c : Char) (h : isJsSpace c = true) :
    isWordChar c = false := by
  simp only [isJsSpace, Bool.or_eq_true, Bool.and_eq_true, decide_eq_true_eq] at h
  simp only [isWordChar, Bool.or_eq_false_iff, Bool.and_eq_false_imp,
    decide_eq_false_iff_not, decide_eq_true_eq]
  omega

/-- Whitespace characters pass the keep filter. -/
theorem space_keep (c : Char) (h : isJsSpace c = true) : keepCls c = true := by
  simp [keepCls, h]

/-- An all-whitespace list is unchanged by the keep filter. -/
theorem filter_keep_spaces (B : List Char) (h : ∀ c ∈ B, isJsSpace c = true) :
    B.filter keepCls = B :=
  List.filter_eq_self.2 (fun c hc => space_keep c (h c hc))

/-- `dropWhile` swallows a satisfying front segment. -/
theorem dropWhile_sat_front (p : Char → Bool) :
    ∀ (F : List Char), (∀ c ∈ F, p c = true) → ∀ (l : List Char),
      (F ++ l).dropWhile p = l.dropWhile p := by
  intro F
  induction F with
  | nil => intro _ l; rfl
  | cons c F2 ih =>
    intro hF l
    rw [List.cons_append, List.dropWhile_cons, if_pos (hF c (by simp))]
    exact ih (fun d hd => hF d (by simp [hd])) l

/-- `dropWhile` empties an all-satisfying list. -/
theorem dropWhile_sat_all (p : Char → Bool) (l : List Char)
    (h : ∀ c ∈ l, p c = true) : l.dropWhile p = [] := by
  have h2 := dropWhile_sat_front p l h []
  simpa using h2

/-- Leading whitespace does not change the trimmed form. -/
theorem trimSp_sp_front (F x : List Char) (hF : ∀ c ∈ F, isJsSpace c = true) :
    trimSp (F ++ x) = trimSp x := by
  unfold trimSp
  rw [dropWhile_sat_front isJsSpace F hF x]

/-- Trailing whitespace does not change the trimmed form. -/
theorem trimSp_sp_suffix (x G : List Char) (hG : ∀ c ∈ G, isJsSpace c = true) :
    trimSp (x ++ G) = trimSp x := by
  unfold trimSp
  rw [List.dropWhile_append]
  by_cases hx : (x.dropWhile isJsSpace).isEmpty
  · rw [if_pos hx, dropWhile_sat_all isJsSpace G hG, List.isEmpty_iff.1 hx]
  · rw [if_neg hx, List.reverse_append,
      dropWhile_sat_front isJsSpace G.reverse
        (fun c hc => hG c (List.mem_reverse.1 hc)) _]

/-- A leading space does not change the trimmed form. -/
theorem trimSp_cons_space (z : List Char) : trimSp (' ' :: z) = trimSp z :=
  trimSp_sp_front [' '] z (fun d hd => by simp at hd; subst hd; decide)

/-- Whitespace context around a list does not change its trimmed form. -/
theorem trimSp_sp_ctx (F x G : List Char) (hF : ∀ c ∈ F, isJsSpace c = true)
    (hG : ∀ c ∈ G, isJsSpace c = true) :
    trimSp (F ++ (x ++ G)) = trimSp x := by
  rw [trimSp_sp_front F _ hF, trimSp_sp_suffix x G hG]

/-- Every list splits as leading whitespace, its trimmed core, and
trailing whitespace. -/
theorem trimSp_decomp (l : List Char) :
    ∃ F G, (∀ c ∈ F, isJsSpace c = true) ∧ (∀ c ∈ G, isJsSpace c = true) ∧
      l = F ++ (trimSp l ++ G) := by
  refine ⟨l.takeWhile isJsSpace,
    ((l.dropWhile isJsSpace).reverse.takeWhile isJsSpace).reverse,
    fun c hc => List.mem_takeWhile_imp hc,
    fun c hc => List.mem_takeWhile_imp (List.mem_reverse.1 hc), ?_⟩
  have h2 : l.dropWhile isJsSpace =
      trimSp l ++ ((l.dropWhile isJsSpace).reverse.takeWhile isJsSpace).reverse := by
    conv_lhs => rw [← List.reverse_reverse (l.dropWhile isJsSpace)]
    conv_lhs => rw [← @List.takeWhile_append_dropWhile _ isJsSpace
      (l.dropWhile isJsSpace).reverse]
    rw [List.reverse_append]
    rfl
  conv_lhs => rw [← @List.takeWhile_append_dropWhile _ isJsSpace l, h2]

/-- Head step of the collapse recursion: space seen, space pending. -/
theorem collapseWsAux_true_cons_pos (c : Char) (cs : List Char)
    (hc : isJsSpace c = true) :
    collapseWsAux true (c :: cs) = collapseWsAux true cs := by
  show (if isJsSpace c then collapseWsAux true cs
    else c :: collapseWsAux false cs) = collapseWsAux true cs
  rw [if_pos hc]

/-- Head step of the collapse recursion: non-space seen, space pending. -/
theorem collapseWsAux_true_cons_neg (c : Char) (cs : List Char)
    (hc : ¬ isJsSpace c = true) :
    collapseWsAux true (c :: cs) = c :: collapseWsAux false cs := by
  show (if isJsSpace c then collapseWsAux true cs
    else c :: collapseWsAux false cs) = c :: collapseWsAux false cs
  rw [if_neg hc]

/-- Head step of the collapse recursion: space seen, none pending. -/
theorem collapseWsAux_false_cons_pos (c : Char) (cs : List Char)
    (hc : isJsSpace c = true) :
    collapseWsAux false (c :: cs) = ' ' :: collapseWsAux true cs := by
  show (if isJsSpace c then ' ' :: collapseWsAux true cs
    else c :: collapseWsAux false cs) = ' ' :: collapseWsAux true cs
  rw [if_pos hc]

/-- Head step of the collapse recursion: non-space seen, none pending. -/
theorem collapseWsAux_false_cons_neg (c : Char) (cs : List Char)
    (hc : ¬ isJsSpace c = true) :
    collapseWsAux false (c :: cs) = c :: collapseWsAux false cs := by
  show (if isJsSpace c then ' ' :: collapseWsAux true cs
    else c :: collapseWsAux false cs) = c :: collapseWsAux false cs
  rw [if_neg hc]

/-- With a space pending, the collapse drops further leading
whitespace. -/
theorem collapseWsAux_true_drop (m : List Char) :
    collapseWsAux true m = collapseWsAux false (m.dropWhile isJsSpace) := by
  induction m with
  | nil => rfl
  | cons c cs ih =>
    by_cases hc : isJsSpace c = true
    · rw [List.dropWhile_cons, if_pos hc, collapseWsAux_true_cons_pos c cs hc]
      exact ih
    · rw [List.dropWhile_cons, if_neg hc, collapseWsAux_true_cons_neg c cs hc,
        collapseWsAux_false_cons_neg c cs hc]

/-- With a space pending, the collapse erases an all-whitespace list. -/
theorem collapseWsAux_true_sp (G : List Char)
    (hG : ∀ c ∈ G, isJsSpace c = true) :
    collapseWsAux true G = [] := by
  rw [collapseWsAux_true_drop G, dropWhile_sat_all isJsSpace G hG]
  rfl

/-- With a space pending, the collapse drops an all-whitespace front
segment. -/
theorem collapseWsAux_true_sp_front (F x : List Char)
    (hF : ∀ c ∈ F, isJsSpace c = true) :
    collapseWsAux true (F ++ x) = collapseWsAux true x := by
  rw [collapseWsAux_true_drop (F ++ x), collapseWsAux_true_drop x,
    dropWhile_sat_front isJsSpace F hF x]

/-- Appended trailing whitespace adds at most one space to the collapsed
output. -/
theorem collapseWsAux_sp_suffix (G : List Char)
    (hG : ∀ c ∈ G, isJsSpace c = true) :
    ∀ (m : List Char) (b : Bool),
      collapseWsAux b (m ++ G) = collapseWsAux b m ∨
      collapseWsAux b (m ++ G) = collapseWsAux b m ++ [' '] := by
  intro m
  induction m with
  | nil =>
    intro b
    cases b with
    | true =>
      left
      rw [List.nil_append, collapseWsAux_true_sp G hG]
      rfl
    | false =>
      cases G with
      | nil => left; rfl
      | cons g G2 =>
        right
        rw [List.nil_append,
          collapseWsAux_false_cons_pos g G2 (hG g (by simp)),
          collapseWsAux_true_sp G2 (fun c hc => hG c (by simp [hc]))]
        rfl
  | cons c cs ih =>
    intro b
    cases b with
    | true =>
      by_cases hc : isJsSpace c = true
      · rw [List.cons_append, collapseWsAux_true_cons_pos c (cs ++ G) hc,
          collapseWsAux_true_cons_pos c cs hc]
        exact ih true
      · rw [List.cons_append, collapseWsAux_true_cons_neg c (cs ++ G) hc,
          collapseWsAux_true_cons_neg c cs hc]
        rcases ih false with h | h
        · left; rw [h]
        · right; rw [h, List.cons_append]
    | false =>
      by_cases hc : isJsSpace c = true
      · rw [List.cons_append, collapseWsAux_false_cons_pos c (cs ++ G) hc,
          collapseWsAux_false_cons_pos c cs hc]
        rcases ih true with h | h
        · left; rw [h]
        · right; rw [h, List.cons_append]
      · rw [List.cons_append, collapseWsAux_false_cons_neg c (cs ++ G) hc,
          collapseWsAux_false_cons_neg c cs hc]
        rcases ih false with h | h
        · left; rw [h]
        · right; rw [h, List.cons_append]

/-- Leading whitespace of the input changes the collapsed output only
inside the outer trim. -/
theorem ts_collapse_drop (x : List Char) :
    trimSp (collapseWsAux false x) =
    trimSp (collapseWsAux false (x.dropWhile isJsSpace)) := by
  cases x with
  | nil => rfl
  | cons c cs =>
    by_cases hc : isJsSpace c = true
    · rw [List.dropWhile_cons, if_pos hc, collapseWsAux_false_cons_pos c cs hc,
        collapseWsAux_true_drop cs, trimSp_cons_space]
    · rw [List.dropWhile_cons, if_neg hc]

/-- Whitespace context around the input changes the collapsed output only
inside the outer trim. -/
theorem ts_collapse_ctx (F x G : List Char)
    (hF : ∀ c ∈ F, isJsSpace c = true) (hG : ∀ c ∈ G, isJsSpace c = true) :
    trimSp (collapseWs (F ++ (x ++ G))) = trimSp (collapseWs x) := by
  unfold collapseWs
  have hback : trimSp (collapseWsAux false (F ++ (x ++ G))) =
      trimSp (collapseWsAux false (F ++ x)) := by
    rw [show F ++ (x ++ G) = (F ++ x) ++ G from (List.append_assoc F x G).symm]
    rcases collapseWsAux_sp_suffix G hG (F ++ x) false with h | h
    · rw [h]
    · rw [h]
      exact trimSp_sp_suffix _ [' '] (fun d hd => by simp at hd; subst hd; decide)
  rw [hback]
  cases F with
  | nil => rfl
  | cons f F2 =>
    rw [List.cons_append, collapseWsAux_false_cons_pos f (F2 ++ x) (hF f (by simp)),
      collapseWsAux_true_sp_front F2 x (fun d hd => hF d (by simp [hd])),
      collapseWsAux_true_drop x, trimSp_cons_space, ← ts_collapse_drop x]

/-- Base equation of the article-stripping recursion. -/
theorem stripGo_nil (r : List Char) :
    stripArticlesGo r [] = if isArticleRun r then [] else r := rfl

/-- Head step of the article-stripping recursion on a word character. -/
theorem stripGo_cons_word (r : List Char) (c : Char) (l : List Char)
    (hc : isWordChar c = true) :
    stripArticlesGo r (c :: l) = stripArticlesGo (r ++ [c]) l := by
  show (if isWordChar c then stripArticlesGo (r ++ [c]) l
      else (if isArticleRun r then [] else r) ++ c :: stripArticlesGo [] l) =
    stripArticlesGo (r ++ [c]) l
  rw [if_pos hc]

/-- Head step of the article-stripping recursion on a non-word
character: the pending run is checked and flushed. -/
theorem stripGo_cons_nonword_run (r : List Char) (c : Char) (l : List Char)
    (hc : isWordChar c = false) :
    stripArticlesGo r (c :: l) =
      (if isArticleRun r then [] else r) ++ c :: stripArticlesGo [] l := by
  show (if isWordChar c then stripArticlesGo (r ++ [c]) l
      else (if isArticleRun r then [] else r) ++ c :: stripArticlesGo [] l) =
    (if isArticleRun r then [] else r) ++ c :: stripArticlesGo [] l
  rw [if_neg (by simp [hc])]

/-- With an empty pending run, a non-word head passes through. -/
theorem stripGo_cons_nonword (c : Char) (l : List Char)
    (hc : isWordChar c = false) :
    stripArticlesGo [] (c :: l) = c :: stripArticlesGo [] l := by
  rw [stripGo_cons_nonword_run [] c l hc, ite_self, List.nil_append]

/-- An all-non-word front segment passes through the stripping. -/
theorem stripGo_nonword_front :
    ∀ (F : List Char), (∀ c ∈ F, isWordChar c = false) → ∀ (l : List Char),
      stripArticlesGo [] (F ++ l) = F ++ stripArticlesGo [] l := by
  intro F
  induction F with
  | nil => intro _ l; rfl
  | cons c F2 ih =>
    intro hF l
    rw [List.cons_append, stripGo_cons_nonword c _ (hF c (by simp)),
      ih (fun d hd => hF d (by simp [hd])) l, List.cons_append]

/-- An all-non-word list is unchanged by the stripping. -/
theorem stripGo_all_nonword (B : List Char)
    (hB : ∀ c ∈ B, isWordChar c = false) :
    stripArticlesGo [] B = B := by
  have h := stripGo_nonword_front B hB []
  simpa [stripGo_nil, ite_self] using h

/-- On an all-non-word tail, the stripping only checks the pending
run. -/
theorem stripGo_run_nonword (r B : List Char)
    (hB : ∀ c ∈ B, isWordChar c = false) :
    stripArticlesGo r B = (if isArticleRun r then [] else r) ++ B := by
  cases B with
  | nil => simp [stripGo_nil]
  | cons c B2 =>
    rw [stripGo_cons_nonword_run r c B2 (hB c (by simp)),
      stripGo_all_nonword B2 (fun d hd => hB d (by simp [hd]))]

/-- An all-non-word suffix passes through the stripping unchanged. -/
theorem stripGo_append_nonword (B : List Char)
    (hB : ∀ c ∈ B, isWordChar c = false) :
    ∀ (m r : List Char),
      stripArticlesGo r (m ++ B) = stripArticlesGo r m ++ B := by
  intro m
  induction m with
  | nil =>
    intro r
    rw [List.nil_append, stripGo_run_nonword r B hB, stripGo_nil]
  | cons c m2 ih =>
    intro r
    by_cases hc : isWordChar c = true
    · rw [List.cons_append, stripGo_cons_word r c _ hc, stripGo_cons_word r c m2 hc]
      exact ih (r ++ [c])
    · have hc2 : isWordChar c = false := by
        cases h : isWordChar c
        · rfl
        · exact absurd h hc
      rw [List.cons_append, stripGo_cons_nonword_run r c _ hc2,
        stripGo_cons_nonword_run r c m2 hc2, ih []]
      simp

/-- An all-word front segment is absorbed into the pending run. -/
theorem stripGo_append_word :
    ∀ (w : List Char), (∀ c ∈ w, isWordChar c = true) →
    ∀ (r v : List Char),
      stripArticlesGo r (w ++ v) = stripArticlesGo (r ++ w) v := by
  intro w
  induction w with
  | nil => intro _ r v; simp
  | cons c w2 ih =>
    intro hw r v
    rw [List.cons_append, stripGo_cons_word r c _ (hw c (by simp)),
      ih (fun d hd => hw d (by simp [hd])) (r ++ [c]) v, List.append_assoc]
    rfl

/-- After a segment ending in a non-word character, the stripping
restarts independently. -/
theorem stripGo_append_last_nonword (c : Char) (hc : isWordChar c = false) :
    ∀ (u2 : List Char) (r rest : List Char),
      stripArticlesGo r ((u2 ++ [c]) ++ rest) =
      stripArticlesGo r (u2 ++ [c]) ++ stripArticlesGo [] rest := by
  intro u2
  induction u2 with
  | nil =>
    intro r rest
    rw [List.nil_append, List.cons_append, List.nil_append,
      stripGo_cons_nonword_run r c rest hc, stripGo_cons_nonword_run r c [] hc,
      stripGo_nil, ite_self]
    simp
  | cons d u3 ih =>
    intro r rest
    by_cases hd : isWordChar d = true
    · rw [List.cons_append, List.cons_append, stripGo_cons_word r d _ hd,
        stripGo_cons_word r d _ hd]
      exact ih (r ++ [d]) rest
    · have hd2 : isWordChar d = false := by
        cases h : isWordChar d
        · rfl
        · exact absurd h hd
      rw [List.cons_append, List.cons_append, stripGo_cons_nonword_run r d _ hd2,
        stripGo_cons_nonword_run r d _ hd2, ih [] rest]
      simp

/-- The outer trim of `normalizeQuestion` lets the inner trim be pushed
through the article stripping. -/
theorem trim_strip_trim (z : List Char) :
    trimSp (stripArticles z) = trimSp (stripArticles (trimSp z)) := by
  obtain ⟨F, G, hF, hG, hdec⟩ := trimSp_decomp z
  conv_lhs => rw [hdec]
  unfold stripArticles
  rw [stripGo_nonword_front F (fun c hc => space_not_word c (hF c hc)) _,
    stripGo_append_nonword G (fun c hc => space_not_word c (hG c hc)) (trimSp z) []]
  exact trimSp_sp_ctx F _ G hF hG

/-- `normalizeQuestionL` is article stripping and a final trim applied to
the canonical form: the trim taken before the punctuation filter can be
deferred until after the whitespace collapse. -/
theorem normalizeQuestionL_eq (l : List Char) :
    normalizeQuestionL l = trimSp (stripArticles (qCanonL l)) := by
  unfold normalizeQuestionL qCanonL
  obtain ⟨F, G, hF, hG, hdec⟩ := trimSp_decomp (l.map jsToLower)
  have hfilt : (l.map jsToLower).filter keepCls =
      F ++ ((trimSp (l.map jsToLower)).filter keepCls ++ G) := by
    conv_lhs => rw [hdec]
    rw [List.filter_append, List.filter_append, filter_keep_spaces F hF,
      filter_keep_spaces G hG]
  rw [hfilt, ts_collapse_ctx F _ G hF hG]
  exact trim_strip_trim (collapseWs ((trimSp (l.map jsToLower)).filter keepCls))

/-- The three article tokens consist of word characters. -/
theorem article_word (w : List Char) (h : isArticleRun w = true) :
    ∀ c ∈ w, isWordChar c = true := by
  simp only [isArticleRun, Bool.or_eq_true, decide_eq_true_eq] at h
  rcases h with (h | h) | h <;> subst h <;> decide

/-- Replacing one article run by another between a non-word-ending (or
empty) left context and a non-word-starting (or empty) right context
does not change the article-stripped form. -/
theorem strip_article_swap (u v w1 w2 : List Char)
    (h1 : isArticleRun w1 = true) (h2 : isArticleRun w2 = true)
    (hu : u = [] ∨ ∃ u0 c, u = u0 ++ [c] ∧ isWordChar c = false)
    (hv : v = [] ∨ ∃ c v0, v = c :: v0 ∧ isWordChar c = false) :
    stripArticles (u ++ (w1 ++ v)) = stripArticles (u ++ (w2 ++ v)) := by
  have core : ∀ w, isArticleRun w = true →
      stripArticlesGo [] (w ++ v) = stripArticlesGo [] v := by
    intro w hw
    have hgo : stripArticlesGo [] (w ++ v) = stripArticlesGo w v := by
      have h := stripGo_append_word w (article_word w hw) [] v
      simpa using h
    rw [hgo]
    rcases hv with rfl | ⟨c, v0, rfl, hc⟩
    · rw [stripGo_nil, stripGo_nil, if_pos hw, ite_self]
    · rw [stripGo_cons_nonword_run w c v0 hc, if_pos hw,
        stripGo_cons_nonword c v0 hc]
      rfl
  unfold stripArticles
  rcases hu with rfl | ⟨u0, c, rfl, hc⟩
  · rw [List.nil_append, List.nil_append, core w1 h1, core w2 h2]
  · rw [stripGo_append_last_nonword c hc u0 [] (w1 ++ v),
      stripGo_append_last_nonword c hc u0 [] (w2 ++ v),
      core w1 h1, core w2 h2]

/-- C10, amended.  `hashQuestion` depends on a question text only through
its canonical form (lower-cased, with every character other than word
characters, whitespace and apostrophes deleted, whitespace runs
collapsed, ends trimmed): any two texts with equal canonical forms hash
identically — in particular variants differing only in letter case, in
punctuation other than apostrophes, or in extra whitespace — and so do
two texts whose canonical forms differ by swapping one article token
(the/a/an) for another between non-word boundaries; but deleting an
article changes the hash (the token is erased after whitespace
collapsing, leaving both flanking spaces), and so does removing an
apostrophe; the Diff Engine, which keys `added`/`removed` on this hash,
treats such invariant variants as the same question. -/
theorem hashQuestion_variant_invariances :
    (∀ s t : String, qCanon s = qCanon t → hashQuestion s = hashQuestion t) ∧
    (∀ (s t : String) (u w1 w2 v : List Char),
      isArticleRun w1 = true → isArticleRun w2 = true →
      (u = [] ∨ ∃ u0 c, u = u0 ++ [c] ∧ isWordChar c = false) →
      (v = [] ∨ ∃ c v0, v = c :: v0 ∧ isWordChar c = false) →
      qCanon s = u ++ (w1 ++ v) → qCanon t = u ++ (w2 ++ v) →
      hashQuestion s = hashQuestion t) ∧
    hashQuestion ("What  is, the CAT?") = hashQuestion ("what is the cat") ∧
    hashQuestion ("what is the cat") = hashQuestion ("what is a cat") ∧
    hashQuestion ("what's") ≠ hashQuestion ("whats") ∧
    (diffPAALists [⟨"what is the cat", hashQuestion ("what is the cat")⟩]
        (mkCurrent [("What is a CAT?")])).added = [] ∧
    (diffPAALists [⟨"what is the cat", hashQuestion ("what is the cat")⟩]
        (mkCurrent [("What is a CAT?")])).removed = [] := by
  refine ⟨?_, ?_, by decide, by decide, by decide, by decide, by decide⟩
  · intro s t h
    unfold hashQuestion normalizeQuestion
    rw [normalizeQuestionL_eq s.data, normalizeQuestionL_eq t.data,
      show qCanonL s.data = qCanonL t.data from h]
  · intro s t u w1 w2 v h1 h2 hu hv hs ht
    unfold hashQuestion normalizeQuestion
    rw [normalizeQuestionL_eq s.data, normalizeQuestionL_eq t.data,
      show qCanonL s.data = u ++ (w1 ++ v) from hs,
      show qCanonL t.data = u ++ (w2 ++ v) from ht,
      strip_article_swap u v w1 w2 h1 h2 hu hv]

/-- C10, witness: the canonical-form conjunct applied to a
case/punctuation/whitespace variant pair, and the article-swap conjunct
applied to a the/an swap. -/
theorem hashQuestion_variant_invariances_witness :
    hashQuestion ("HELLO,  world!") = hashQuestion ("hello world") ∧
    hashQuestion ("x the y") = hashQuestion ("x an y") :=
  ⟨hashQuestion_variant_invariances.1 ("HELLO,  world!") ("hello world")
      (by decide),
   hashQuestion_variant_invariances.2.1 ("x the y") ("x an y")
      ['x', ' '] ['t', 'h', 'e'] ['a', 'n'] [' ', 'y']
      (by decide) (by decide)
      (Or.inr ⟨['x'], ' ', by decide, by decide⟩)
      (Or.inr ⟨' ', ['y'], by decide, by decide⟩)
      (by decide) (by decide)⟩

/-! ### C1 — the `maxNodes` budget of the tree walk -/

/-- The Unicode character model restricted to the Basic Latin range, on
which NFKC is the identity; used to instantiate the normalizer at
concrete ASCII inputs. -/
def asciiCharModel : CharModel where
  nfkc := fun c => [c]
  lower := jsToLower
  isLetter := fun c => (97 ≤ c.toNat && c.toNat ≤ 122) || (65 ≤ c.toNat && c.toNat ≤ 90)
  isNumber := fun c => 48 ≤ c.toNat && c.toNat ≤ 57

/-- The `normalize` of `normalize.ts` as a string function, instantiated
at the Basic Latin character model. -/
def normStr (s : String) : String :=
  String.mk (normalize asciiCharModel s.data)

/-- C1, counterexample.  The claim states that the item count of a run
never exceeds `maxNodes`.  The code checks the budget only after
processing a whole `getAccordionItems` batch (and, inside the batch,
only as a guard on expansion, not on recording), so a single batch can
overshoot: with `maxNodes = 1` and a first batch holding two distinct
questions, the run records two items. -/
theorem bfs_items_can_exceed_maxNodes :
    ¬ ((bfsRun normStr 0 1
        [[⟨"aa", 0, "", false⟩, ⟨"bb", 1, "", false⟩]]).length ≤ 1) := by
  decide

/-- Each step of the per-batch loop records at most one new item. -/
theorem stepItem_items_length (nf : String → String) (d mN : Nat)
    (node : QNode) (st : BfsState) (ob : ObsItem) :
    (stepItem nf d mN node st ob).items.length ≤ st.items.length + 1 := by
  unfold stepItem
  dsimp only []
  split_ifs <;> simp

/-- A whole batch adds at most its own length to the item count. -/
theorem foldl_stepItem_items_length (nf : String → String) (d mN : Nat)
    (node : QNode) :
    ∀ (batch : List ObsItem) (st : BfsState),
      (batch.foldl (stepItem nf d mN node) st).items.length ≤
        st.items.length + batch.length := by
  intro batch
  induction batch with
  | nil => intro st; simp
  | cons ob obs ih =>
    intro st
    calc ((ob :: obs).foldl (stepItem nf d mN node) st).items.length
        = (obs.foldl (stepItem nf d mN node) (stepItem nf d mN node st ob)).items.length := rfl
      _ ≤ (stepItem nf d mN node st ob).items.length + obs.length := ih _
      _ ≤ st.items.length + 1 + obs.length := by
          exact Nat.add_le_add_right (stepItem_items_length nf d mN node st ob) _
      _ = st.items.length + (ob :: obs).length := by simp [List.length_cons]; omega

/-- Loop invariant for the amended budget bound: if the loop is entered
with fewer than `maxNodes` recorded items and every pending batch has at
most `B` entries, the final item count is at most `maxNodes - 1 + B`. -/
theorem bfsLoop_length_le (nf : String → String) (d mN B : Nat)
    (h1 : 1 ≤ mN) :
    ∀ (obs : List (List ObsItem)) (queue : List QNode) (seen : List String)
      (items : List PAAItem),
      items.length ≤ mN - 1 → (∀ b ∈ obs, b.length ≤ B) →
      (bfsLoop nf d mN obs queue seen items).length ≤ mN - 1 + B := by
  intro obs
  induction obs with
  | nil =>
    intro queue seen items hit _
    cases queue <;> simpa [bfsLoop] using Nat.le_add_right_of_le hit
  | cons batch rest ih =>
    intro queue seen items hit hB
    cases queue with
    | nil => simpa [bfsLoop] using Nat.le_add_right_of_le hit
    | cons node qRest =>
      show (if mN ≤ (batch.foldl (stepItem nf d mN node) ⟨seen, items, qRest⟩).items.length
            then (batch.foldl (stepItem nf d mN node) ⟨seen, items, qRest⟩).items
            else bfsLoop nf d mN rest
              (batch.foldl (stepItem nf d mN node) ⟨seen, items, qRest⟩).queue
              (batch.foldl (stepItem nf d mN node) ⟨seen, items, qRest⟩).seen
              (batch.foldl (stepItem nf d mN node) ⟨seen, items, qRest⟩).items).length ≤
        mN - 1 + B
      split_ifs with hfull
      · calc (batch.foldl (stepItem nf d mN node) ⟨seen, items, qRest⟩).items.length
            ≤ items.length + batch.length := foldl_stepItem_items_length nf d mN node batch _
          _ ≤ (mN - 1) + B := Nat.add_le_add hit (hB batch (by simp))
      · exact ih _ _ _
          (by omega)
          (fun b hb => hB b (List.mem_cons_of_mem _ hb))

/-- C1, amended.  For every run, the recorded item count is at most
`maxNodes - 1 + B`, where `B` bounds the size of every accordion batch
observed at a dequeue step: the node budget is enforced only between
queue entries, so the final batch may overshoot it by its own size, and
no further recording happens once the budget is reached. -/
theorem bfs_items_le_maxNodes_plus_batch (nf : String → String)
    (depthReq maxNodes B : Nat) (obs : List (List ObsItem))
    (h1 : 1 ≤ maxNodes) (hB : ∀ b ∈ obs, b.length ≤ B) :
    (bfsRun nf depthReq maxNodes obs).length ≤ maxNodes - 1 + B :=
  bfsLoop_length_le nf depthReq maxNodes B h1 obs _ _ _ (by simp) hB

/-- C1, witness for the amended bound at a concrete overshooting run. -/
theorem bfs_items_le_maxNodes_plus_batch_witness :
    (bfsRun normStr 0 1 [[⟨"aa", 0, "", false⟩, ⟨"bb", 1, "", false⟩]]).length ≤
      1 - 1 + 2 :=
  bfs_items_le_maxNodes_plus_batch normStr 0 1 2
    [[⟨"aa", 0, "", false⟩, ⟨"bb", 1, "", false⟩]] (by decide) (by decide)

/-! ### Per-run deduplication of the walk, and consensus helpers -/

/-- Invariant of the walk state: the recorded normalized texts are
pairwise distinct and all of them are in the `seen` set. -/
def itemsInv (seen : List String) (items : List PAAItem) : Prop :=
  (items.map (fun i => i.norm)).Nodup ∧ ∀ i ∈ items, i.norm ∈ seen

/-- One step of the per-batch loop either leaves `seen` and `items`
unchanged, or records one item of unseen normalized text and adds that
text to `seen`. -/
theorem stepItem_seen_items (nf : String → String) (d mN : Nat)
    (node : QNode) (st : BfsState) (ob : ObsItem) :
    ((stepItem nf d mN node st ob).seen = st.seen ∧
      (stepItem nf d mN node st ob).items = st.items) ∨
    (∃ x : PAAItem, x.norm = nf (jsTrimString ob.question) ∧
      x.norm ∉ st.seen ∧
      (stepItem nf d mN node st ob).seen = x.norm :: st.seen ∧
      (stepItem nf d mN node st ob).items = st.items ++ [x]) := by
  by_cases hmem : nf (jsTrimString ob.question) ∈ st.seen
  · left
    constructor <;> (simp only [stepItem]; rw [if_pos hmem]; split_ifs <;> rfl)
  · right
    refine ⟨⟨jsTrimString ob.question, nf (jsTrimString ob.question),
      node.depth, node.parent, ob.path, ob.orderIdx⟩, rfl, hmem, ?_, ?_⟩ <;>
      (simp only [stepItem]; rw [if_neg hmem]; split_ifs <;> rfl)

/-- The step preserves the deduplication invariant. -/
theorem stepItem_inv (nf : String → String) (d mN : Nat) (node : QNode)
    (st : BfsState) (ob : ObsItem) (h : itemsInv st.seen st.items) :
    itemsInv (stepItem nf d mN node st ob).seen
      (stepItem nf d mN node st ob).items := by
  obtain ⟨hnd, hsub⟩ := h
  rcases stepItem_seen_items nf d mN node st ob with
    ⟨hs, hi⟩ | ⟨x, hxn, hxmem, hs, hi⟩
  · rw [hs, hi]
    exact ⟨hnd, hsub⟩
  · rw [hs, hi]
    constructor
    · rw [List.map_append]
      apply List.nodup_append.2
      refine ⟨hnd, by simp, ?_⟩
      intro a ha hax
      simp only [List.map_cons, List.map_nil, List.mem_singleton] at hax
      rcases List.mem_map.1 ha with ⟨i, hi', hin⟩
      have : x.norm ∈ st.seen := by
        rw [← hax, ← hin]
        exact hsub i hi'
      exact hxmem this
    · intro i hi'
      rcases List.mem_append.1 hi' with h' | h'
      · exact List.mem_cons_of_mem _ (hsub i h')
      · simp only [List.mem_singleton] at h'
        rw [h']
        exact List.mem_cons_self _ _

/-- A whole batch preserves the deduplication invariant. -/
theorem foldl_stepItem_inv (nf : String → String) (d mN : Nat)
    (node : QNode) :
    ∀ (batch : List ObsItem) (st : BfsState), itemsInv st.seen st.items →
      itemsInv (batch.foldl (stepItem nf d mN node) st).seen
        (batch.foldl (stepItem nf d mN node) st).items := by
  intro batch
  induction batch with
  | nil => intro st h; exact h
  | cons ob obs ih =>
    intro st h
    exact ih _ (stepItem_inv nf d mN node st ob h)

/-- The full walk keeps the normalized texts pairwise distinct. -/
theorem bfsLoop_norms_nodup (nf : String → String) (d mN : Nat) :
    ∀ (obs : List (List ObsItem)) (queue : List QNode) (seen : List String)
      (items : List PAAItem), itemsInv seen items →
      ((bfsLoop nf d mN obs queue seen items).map (fun i => i.norm)).Nodup := by
  intro obs
  induction obs with
  | nil =>
    intro queue seen items h
    cases queue <;> exact h.1
  | cons batch rest ih =>
    intro queue seen items h
    cases queue with
    | nil => exact h.1
    | cons node qRest =>
      show (if mN ≤ (batch.foldl (stepItem nf d mN node) ⟨seen, items, qRest⟩).items.length
            then (batch.foldl (stepItem nf d mN node) ⟨seen, items, qRest⟩).items
            else bfsLoop nf d mN rest
              (batch.foldl (stepItem nf d mN node) ⟨seen, items, qRest⟩).queue
              (batch.foldl (stepItem nf d mN node) ⟨seen, items, qRest⟩).seen
              (batch.foldl (stepItem nf d mN node) ⟨seen, items, qRest⟩).items).map
              (fun i => i.norm) |>.Nodup
      have hst := foldl_stepItem_inv nf d mN node batch ⟨seen, items, qRest⟩ h
      split_ifs
      · exact hst.1
      · exact ih _ _ _ hst

/-- Every `runSingle` item list has pairwise distinct normalized texts:
the run-level `seen` set admits each normalized form at most once. -/
theorem bfsRun_norms_nodup (nf : String → String) (d mN : Nat)
    (obs : List (List ObsItem)) :
    ((bfsRun nf d mN obs).map (fun i => i.norm)).Nodup :=
  bfsLoop_norms_nodup nf d mN obs _ _ _ ⟨List.nodup_nil, by simp⟩

/-- Elements of the first-occurrence deduplication come from the list. -/
theorem dedupFirstAux_subset :
    ∀ (l seenKeys : List String) (x : String),
      x ∈ dedupFirstAux seenKeys l → x ∈ l := by
  intro l
  induction l with
  | nil => intro seenKeys x h; cases h
  | cons a as ih =>
    intro seenKeys x h
    unfold dedupFirstAux at h
    split_ifs at h with ha
    · exact List.mem_cons_of_mem _ (ih _ _ h)
    · rcases List.mem_cons.1 h with h' | h'
      · exact h' ▸ List.mem_cons_self _ _
      · exact List.mem_cons_of_mem _ (ih _ _ h')

/-- Membership characterization of the consensus output: a result is in
the output exactly when it is the entry of some aggregated key passing
the quorum threshold, with its confidence attached. -/
theorem mem_runConsensusModel (lc : String → String → Int) (k : Nat)
    (strict : Bool) (runs : List (List PAAItem)) (r : ConsensusPAAResult) :
    r ∈ runConsensusModel lc k strict runs ↔
    ∃ e ∈ aggregate runs, thresholdOf strict k ≤ e.appearances ∧
      r = ⟨e.raw, e.norm, e.depth, e.parent, e.appearances,
        confidenceOf k e.appearances e.depth⟩ := by
  unfold runConsensusModel
  rw [(List.mergeSort_perm _ (consensusLe lc)).mem_iff]
  constructor
  · intro h
    rcases List.mem_map.1 h with ⟨e, he, hre⟩
    rcases List.mem_filter.1 he with ⟨hee, hth⟩
    exact ⟨e, hee, by simpa using hth, hre.symm⟩
  · rintro ⟨e, he, hth, rfl⟩
    exact List.mem_map.2 ⟨e, List.mem_filter.2 ⟨he, by simpa using hth⟩, rfl⟩

/-- The appearance count of an aggregated entry is the number of
occurrences of its key across all runs, and its key occurs somewhere. -/
theorem aggregate_appearances (runs : List (List PAAItem))
    (e : ConsensusEntry) (he : e ∈ aggregate runs) :
    e.appearances =
      (runs.flatten.filter (fun it => it.norm == e.norm)).length ∧
    e.norm ∈ runs.flatten.map (fun i => i.norm) := by
  unfold aggregate at he
  rcases List.mem_map.1 he with ⟨n, hn, rfl⟩
  exact ⟨rfl, dedupFirstAux_subset _ _ _ hn⟩

/-- A key occurring in the flattened runs occurs at least once. -/
theorem filter_norm_length_pos (flat : List PAAItem) (n : String)
    (hn : n ∈ flat.map (fun i => i.norm)) :
    1 ≤ (flat.filter (fun it => it.norm == n)).length := by
  rcases List.mem_map.1 hn with ⟨it, hit, hn'⟩
  have : it ∈ flat.filter (fun it => it.norm == n) :=
    List.mem_filter.2 ⟨hit, by simp [hn']⟩
  exact List.length_pos.2 (List.ne_nil_of_mem this)

/-- With pairwise distinct normalized texts inside each run, each run
contributes at most one occurrence per key, so a key occurs at most once
per run across the flattened runs. -/
theorem filter_norm_length_le (n : String) :
    ∀ (runs : List (List PAAItem)),
      (∀ run ∈ runs, ((run.map (fun i => i.norm)).Nodup)) →
      (runs.flatten.filter (fun it => it.norm == n)).length ≤ runs.length := by
  intro runs
  induction runs with
  | nil => simp
  | cons run rest ih =>
    intro h
    rw [List.flatten_cons, List.filter_append, List.length_append]
    have h1 : (run.filter (fun it => it.norm == n)).length ≤ 1 := by
      rw [← List.countP_eq_length_filter]
      have hcm : List.countP (fun it => it.norm == n) run =
          List.count n (run.map (fun i => i.norm)) := by
        rw [List.count_eq_countP, List.countP_map]
        rfl
      rw [hcm]
      exact List.nodup_iff_count_le_one.1 (h run (by simp)) n
    have h2 := ih (fun r hr => h r (List.mem_cons_of_mem _ hr))
    calc (run.filter (fun it => it.norm == n)).length +
          (rest.flatten.filter (fun it => it.norm == n)).length
        ≤ 1 + rest.length := Nat.add_le_add h1 h2
      _ = (run :: rest).length := by simp [Nat.add_comm]

/-- Appearance-count bounds of the consensus output, given per-run
deduplication. -/
theorem appearances_bounds_of_nodup (lc : String → String → Int) (k : Nat)
    (strict : Bool) (runs : List (List PAAItem))
    (hruns : ∀ run ∈ runs, ((run.map (fun i => i.norm)).Nodup)) :
    ∀ r ∈ runConsensusModel lc k strict runs,
      1 ≤ r.appearances ∧ r.appearances ≤ runs.length := by
  intro r hr
  rcases (mem_runConsensusModel lc k strict runs r).1 hr with ⟨e, he, _, rfl⟩
  have ha := aggregate_appearances runs e he
  constructor
  · exact ha.1 ▸ filter_norm_length_pos _ _ ha.2
  · exact ha.1 ▸ filter_norm_length_le e.norm runs hruns

/-! ### C3 — appearance counts lie between 1 and K -/

/-- C3.  Run the consensus pipeline on the item lists of `clampK kreq`
single runs (each a `bfsRun` against its own page oracle, as
`runConsensus` does): every result's appearance count lies between 1 and
K.  The upper bound holds because each run's items are deduplicated by
normalized text (`bfsRun_norms_nodup`), so each of the K runs contributes
at most one occurrence per key. -/
theorem consensus_appearances_in_range (lc : String → String → Int)
    (nf : String → String)
    (depthReq maxNodes kreq : Nat) (strict : Bool)
    (oracles : List (List (List ObsItem)))
    (hlen : oracles.length = clampK kreq) :
    ∀ r ∈ runConsensusModel lc (clampK kreq) strict
        (oracles.map (bfsRun nf depthReq maxNodes)),
      1 ≤ r.appearances ∧ r.appearances ≤ clampK kreq := by
  intro r hr
  have hnodup : ∀ run ∈ oracles.map (bfsRun nf depthReq maxNodes),
      ((run.map (fun i => i.norm)).Nodup) := by
    intro run hrun
    rcases List.mem_map.1 hrun with ⟨o, _, rfl⟩
    exact bfsRun_norms_nodup nf depthReq maxNodes o
  have h := appearances_bounds_of_nodup lc (clampK kreq) strict _ hnodup r hr
  rwa [List.length_map, hlen] at h

/-- C3, witness: one oracle, one question, K = 1. -/
theorem consensus_appearances_in_range_witness :
    1 ≤ (⟨"aa", "aa", 0, none, 1, confidenceOf (clampK 1) 1 0⟩ :
      ConsensusPAAResult).appearances ∧
    (⟨"aa", "aa", 0, none, 1, confidenceOf (clampK 1) 1 0⟩ :
      ConsensusPAAResult).appearances ≤ clampK 1 :=
  consensus_appearances_in_range codePointCompare normStr 0 220 1 false
    [[[⟨"aa", 0, "", false⟩]]] rfl
    ⟨"aa", "aa", 0, none, 1, confidenceOf (clampK 1) 1 0⟩
    ((mem_runConsensusModel codePointCompare (clampK 1) false
        (List.map (bfsRun normStr 0 220) [[[⟨"aa", 0, "", false⟩]]])
        ⟨"aa", "aa", 0, none, 1, confidenceOf (clampK 1) 1 0⟩).2
      ⟨⟨"aa", "aa", 0, 0, none, 1⟩, by decide, by decide, rfl⟩)

/-! ### C7 — sort order of the consensus output -/

/-- The comparator of `runConsensus` as a proposition over the
environment's collation `lc`: descending appearance count, ties by
ascending depth, ties by ascending normalized text in the `lc` order. -/
def consensusRel (lc : String → String → Int) (a b : ConsensusPAAResult) : Prop :=
  b.appearances < a.appearances ∨ (a.appearances = b.appearances ∧
    (a.depth < b.depth ∨ (a.depth = b.depth ∧ lc a.norm b.norm ≤ 0)))

/-- The boolean comparator decides `consensusRel`. -/
theorem consensusLe_iff (lc : String → String → Int) (a b : ConsensusPAAResult) :
    consensusLe lc a b = true ↔ consensusRel lc a b := by
  unfold consensusLe consensusRel
  by_cases h1 : a.appearances = b.appearances
  · rw [if_neg (by simp [h1])]
    by_cases h2 : a.depth = b.depth
    · rw [if_neg (by simp [h2])]
      simp [h1, h2]
    · rw [if_pos h2]
      simp [h1, h2]
  · rw [if_pos h1]
    simp [h1]

/-- Transitivity of the consensus order, given a transitive collation
(ECMA-402 requires the collator to define a consistent ordering, so this
holds of every `localeCompare`). -/
theorem consensusRel_trans (lc : String → String → Int)
    (hlc : ∀ x y z, lc x y ≤ 0 → lc y z ≤ 0 → lc x z ≤ 0)
    (a b c : ConsensusPAAResult)
    (h1 : consensusRel lc a b) (h2 : consensusRel lc b c) :
    consensusRel lc a c := by
  unfold consensusRel at *
  rcases h1 with h1 | ⟨he1, h1⟩
  · rcases h2 with h2 | ⟨he2, h2⟩
    · exact Or.inl (by omega)
    · exact Or.inl (by omega)
  · rcases h2 with h2 | ⟨he2, h2⟩
    · exact Or.inl (by omega)
    · refine Or.inr ⟨he1.trans he2, ?_⟩
      rcases h1 with h1 | ⟨hd1, h1⟩
      · rcases h2 with h2 | ⟨hd2, h2⟩
        · exact Or.inl (by omega)
        · exact Or.inl (by omega)
      · rcases h2 with h2 | ⟨hd2, h2⟩
        · exact Or.inl (by omega)
        · exact Or.inr ⟨hd1.trans hd2, hlc _ _ _ h1 h2⟩

/-- Totality of the consensus order, given a total collation. -/
theorem consensusRel_total (lc : String → String → Int)
    (hlc : ∀ x y, lc x y ≤ 0 ∨ lc y x ≤ 0) (a b : ConsensusPAAResult) :
    consensusRel lc a b ∨ consensusRel lc b a := by
  unfold consensusRel
  rcases Nat.lt_trichotomy a.appearances b.appearances with h | h | h
  · exact Or.inr (Or.inl h)
  · rcases Nat.lt_trichotomy a.depth b.depth with h2 | h2 | h2
    · exact Or.inl (Or.inr ⟨h, Or.inl h2⟩)
    · rcases hlc a.norm b.norm with h3 | h3
      · exact Or.inl (Or.inr ⟨h, Or.inr ⟨h2, h3⟩⟩)
      · exact Or.inr (Or.inr ⟨h.symm, Or.inr ⟨h2.symm, h3⟩⟩)
    · exact Or.inr (Or.inr ⟨h.symm, Or.inl h2⟩)
  · exact Or.inl (Or.inl h)

/-- The code points of a string with the question mark (code point 63)
remapped below every character that can otherwise occur. -/
def qmKey (s : String) : List Nat :=
  s.data.map (fun c => if c.toNat = 63 then 1 else c.toNat)

/-- Three-way comparison of code-point lists by their lexicographic
order. -/
def natListCompare (a b : List Nat) : Int :=
  if a < b then -1 else if b < a then 1 else 0

/-- `natListCompare` sorts-ascending by the lexicographic order. -/
theorem natListCompare_le (a b : List Nat) :
    natListCompare a b ≤ 0 ↔ a ≤ b := by
  unfold natListCompare
  split_ifs with h1 h2
  · exact iff_of_true (by norm_num) (le_of_lt h1)
  · exact iff_of_false (by norm_num) (not_le.2 h2)
  · exact iff_of_true le_rfl (not_lt.1 h2)

/-- A collator with the root-collation property that the question mark
orders before digits (the default Unicode collation gives punctuation
lower primary weights than digits, the reverse of their code-point
order): it compares by code points after moving the question mark below
every other character.  Since normalized questions keep their question
marks, this divergence is reachable. -/
def rootColl (a b : String) : Int :=
  natListCompare (qmKey a) (qmKey b)

/-- `rootColl` sorts-ascending by the remapped code-point order. -/
theorem rootColl_le (a b : String) :
    rootColl a b ≤ 0 ↔ qmKey a ≤ qmKey b :=
  natListCompare_le _ _

/-- A permutation of a two-element list of distinct elements is the list
or its swap. -/
theorem perm_pair_cases {α : Type} (a b : α) (hab : a ≠ b) (l : List α)
    (h : l.Perm [a, b]) : l = [a, b] ∨ l = [b, a] := by
  have hlen : l.length = 2 := by simpa using h.length_eq
  cases l with
  | nil => cases hlen
  | cons x l2 =>
    cases l2 with
    | nil => cases hlen
    | cons y l3 =>
      cases l3 with
      | cons z l4 => simp at hlen
      | nil =>
        have hx : x ∈ ([a, b] : List α) := h.mem_iff.1 (by simp)
        have hy : y ∈ ([a, b] : List α) := h.mem_iff.1 (by simp)
        simp only [List.mem_cons, List.mem_singleton, List.not_mem_nil,
          or_false] at hx hy
        rcases hx with hx | hx <;> rcases hy with hy | hy
        · exfalso
          have hb : b ∈ ([x, y] : List α) := h.mem_iff.2 (by simp)
          simp only [List.mem_cons, List.mem_singleton, List.not_mem_nil,
            or_false] at hb
          rcases hb with hb | hb
          · exact hab (hb.trans hx).symm
          · exact hab (hb.trans hy).symm
        · exact Or.inl (by rw [hx, hy])
        · exact Or.inr (by rw [hx, hy])
        · exfalso
          have ha : a ∈ ([x, y] : List α) := h.mem_iff.2 (by simp)
          simp only [List.mem_cons, List.mem_singleton, List.not_mem_nil,
            or_false] at ha
          rcases ha with ha | ha
          · exact hab (ha.trans hx)
          · exact hab (ha.trans hy)

/-- C7, counterexample.  The claim states that ties are broken in
lexicographic (code-point) ascending order of the normalized text.  The
code breaks ties with `a.norm.localeCompare(b.norm)`, whose order is the
environment's collation; under a collator with the root-collation
property that the question mark sorts before digits, a single run
producing the two tied questions "a1" and "a?" yields an output that is
not sorted by code-point order of the normalized texts. -/
theorem consensus_sort_tiebreak_not_lexicographic :
    ¬ List.Pairwise
      (fun a b : ConsensusPAAResult => b.appearances < a.appearances ∨
        (a.appearances = b.appearances ∧ (a.depth < b.depth ∨
          (a.depth = b.depth ∧
            a.norm.data.map Char.toNat ≤ b.norm.data.map Char.toNat))))
      (runConsensusModel rootColl 1 false
        [[⟨"a1", "a1", 0, none, "", 0⟩, ⟨"a?", "a?", 0, none, "", 1⟩]]) := by
  intro hclaim
  have hpre : (((aggregate [[⟨"a1", "a1", 0, none, "", 0⟩,
        ⟨"a?", "a?", 0, none, "", 1⟩]]).filter
          (fun e => thresholdOf false 1 ≤ e.appearances)).map
        (fun e =>
          ({ question := e.raw, norm := e.norm, depth := e.depth,
             parent := e.parent, appearances := e.appearances,
             confidence := confidenceOf 1 e.appearances e.depth } :
            ConsensusPAAResult))) =
      [⟨"a1", "a1", 0, none, 1, confidenceOf 1 1 0⟩,
       ⟨"a?", "a?", 0, none, 1, confidenceOf 1 1 0⟩] := rfl
  have hne : (⟨"a1", "a1", 0, none, 1, confidenceOf 1 1 0⟩ :
      ConsensusPAAResult) ≠ ⟨"a?", "a?", 0, none, 1, confidenceOf 1 1 0⟩ := by
    intro h
    have h2 := congrArg ConsensusPAAResult.norm h
    exact absurd h2 (by decide)
  have hperm : (runConsensusModel rootColl 1 false
      [[⟨"a1", "a1", 0, none, "", 0⟩, ⟨"a?", "a?", 0, none, "", 1⟩]]).Perm
      [⟨"a1", "a1", 0, none, 1, confidenceOf 1 1 0⟩,
       ⟨"a?", "a?", 0, none, 1, confidenceOf 1 1 0⟩] := by
    unfold runConsensusModel
    rw [hpre]
    exact List.mergeSort_perm _ _
  have hsorted : List.Pairwise (fun a b => consensusLe rootColl a b = true)
      (runConsensusModel rootColl 1 false
        [[⟨"a1", "a1", 0, none, "", 0⟩, ⟨"a?", "a?", 0, none, "", 1⟩]]) := by
    unfold runConsensusModel
    rw [hpre]
    exact @List.sorted_mergeSort ConsensusPAAResult (consensusLe rootColl)
      (fun a b c hab hbc => (consensusLe_iff rootColl a c).2
        (consensusRel_trans rootColl
          (fun x y z h1 h2 => by
            rw [rootColl_le] at *
            exact le_trans h1 h2)
          a b c ((consensusLe_iff rootColl a b).1 hab)
          ((consensusLe_iff rootColl b c).1 hbc)))
      (fun a b => by
        rcases consensusRel_total rootColl
          (fun x y => by
            rw [rootColl_le, rootColl_le]
            exact le_total _ _) a b with h | h
        · simp [(consensusLe_iff rootColl a b).2 h]
        · simp [(consensusLe_iff rootColl b a).2 h])
      _
  rcases perm_pair_cases _ _ hne _ hperm with hout | hout
  · rw [hout] at hsorted
    have h12 := (List.pairwise_cons.1 hsorted).1
      (⟨"a?", "a?", 0, none, 1, confidenceOf 1 1 0⟩ : ConsensusPAAResult)
      (by simp)
    exact absurd h12 (by decide)
  · rw [hout] at hclaim
    have h21 := (List.pairwise_cons.1 hclaim).1
      (⟨"a1", "a1", 0, none, 1, confidenceOf 1 1 0⟩ : ConsensusPAAResult)
      (by simp)
    exact absurd h21 (by decide)

/-- C7, amended.  Over every collation `lc` that is transitive and total
when compared against zero — laws every `localeCompare` collator
satisfies — the consensus output is sorted by descending appearances,
then ascending depth, with remaining ties in ascending `lc` order of the
normalized text: each element is in the `consensusRel lc` order with
every later element. -/
theorem consensus_output_sorted (lc : String → String → Int)
    (hlt : ∀ x y z, lc x y ≤ 0 → lc y z ≤ 0 → lc x z ≤ 0)
    (htot : ∀ x y, lc x y ≤ 0 ∨ lc y x ≤ 0)
    (k : Nat) (strict : Bool) (runs : List (List PAAItem)) :
    List.Pairwise (consensusRel lc) (runConsensusModel lc k strict runs) := by
  have h := @List.sorted_mergeSort ConsensusPAAResult (consensusLe lc)
    (fun a b c hab hbc => (consensusLe_iff lc a c).2
      (consensusRel_trans lc hlt a b c ((consensusLe_iff lc a b).1 hab)
        ((consensusLe_iff lc b c).1 hbc)))
    (fun a b => by
      rcases consensusRel_total lc htot a b with h | h
      · simp [(consensusLe_iff lc a b).2 h]
      · simp [(consensusLe_iff lc b a).2 h])
    (((aggregate runs).filter (fun e => thresholdOf strict k ≤ e.appearances)).map
      (fun e =>
        { question := e.raw, norm := e.norm, depth := e.depth, parent := e.parent,
          appearances := e.appearances,
          confidence := confidenceOf k e.appearances e.depth }))
  exact h.imp (fun hab => (consensusLe_iff lc _ _).1 hab)

/-- C7, witness for the amended theorem: the code-point collator (one
admissible collation) at a concrete run. -/
theorem consensus_output_sorted_witness :
    List.Pairwise (consensusRel codePointCompare)
      (runConsensusModel codePointCompare 1 false
        [[⟨"q", "q", 0, none, "", 0⟩]]) :=
  consensus_output_sorted codePointCompare
    (fun x y z h1 h2 => by
      rw [codePointCompare_le] at *
      exact le_trans h1 h2)
    (fun x y => by
      rw [codePointCompare_le, codePointCompare_le]
      exact le_total x y)
    1 false [[⟨"q", "q", 0, none, "", 0⟩]]

/-! ### C6 — the quorum filter -/

/-- C6.  The consensus output keeps exactly the aggregated keys whose
appearance count meets the quorum threshold — `min(K, 2)` in strict mode,
1 otherwise.  In particular, with K = 2 a key appearing in only one of
the two runs is dropped in strict mode and kept (appearing in the
output's normalized keys) otherwise. -/
theorem consensus_quorum_filter :
    (∀ (lc : String → String → Int) (k : Nat) (strict : Bool)
        (runs : List (List PAAItem)) (n : String),
      (∃ r ∈ runConsensusModel lc k strict runs, r.norm = n) ↔
      (∃ e ∈ aggregate runs, e.norm = n ∧
        (if strict then Nat.min k 2 else 1) ≤ e.appearances)) ∧
    (∀ lc, runConsensusModel lc 2 true
      [[⟨"q", "q", 0, none, "", 0⟩], []] = []) ∧
    (∀ lc, (runConsensusModel lc 2 false
        [[⟨"q", "q", 0, none, "", 0⟩], []]).map
      (fun r => r.norm) = ["q"]) := by
  refine ⟨?_, ?_, ?_⟩
  · intro lc k strict runs n
    constructor
    · rintro ⟨r, hr, rfl⟩
      rcases (mem_runConsensusModel lc k strict runs r).1 hr with ⟨e, he, hth, rfl⟩
      exact ⟨e, he, rfl, by simpa [thresholdOf] using hth⟩
    · rintro ⟨e, he, hn, hth⟩
      exact ⟨⟨e.raw, e.norm, e.depth, e.parent, e.appearances,
        confidenceOf k e.appearances e.depth⟩,
        (mem_runConsensusModel lc k strict runs _).2
          ⟨e, he, by simpa [thresholdOf] using hth, rfl⟩, hn⟩
  · intro lc
    unfold runConsensusModel
    rw [show ((aggregate [[⟨"q", "q", 0, none, "", 0⟩], []]).filter
        (fun e => thresholdOf true 2 ≤ e.appearances)) = [] from by decide]
    simp
  · intro lc
    unfold runConsensusModel
    rw [show ((aggregate [[⟨"q", "q", 0, none, "", 0⟩], []]).filter
        (fun e => thresholdOf false 2 ≤ e.appearances)) =
        [⟨"q", "q", 0, 0, none, 1⟩] from by decide]
    rw [List.map_cons, List.map_nil, List.mergeSort_singleton]
    rfl

/-! ### C4 — the confidence formula -/

/-- Rounding to three decimals is monotone. -/
theorem round3_mono {p q : ℚ} (h : p ≤ q) : round3 p ≤ round3 q := by
  unfold round3
  have hr : round (p * 1000) ≤ round (q * 1000) := by
    rw [round_eq, round_eq]
    exact Int.floor_le_floor (by linarith)
  have hc : ((round (p * 1000) : ℤ) : ℚ) ≤ ((round (q * 1000) : ℤ) : ℚ) := by
    exact_mod_cast hr
  exact (div_le_div_iff_of_pos_right (by norm_num : (0:ℚ) < 1000)).2 hc

/-- Bounds of the confidence value: with `1 ≤ appearances ≤ k ≤ 3` the
pre-rounding value lies in `[1/5, 1]`, and rounding keeps it in
`(0, 1]`. -/
theorem confidenceOf_bounds (k a d : Nat) (h1 : 1 ≤ a) (h2 : a ≤ k)
    (h3 : k ≤ 3) : 0 < confidenceOf k a d ∧ confidenceOf k a d ≤ 1 := by
  have hk1 : 1 ≤ k := le_trans h1 h2
  have hkq : (0:ℚ) < (k:ℚ) := by exact_mod_cast hk1
  have hx : confidenceOf k a d =
      round3 (3 / 5 * ((a : ℚ) / (k : ℚ)) + 2 / 5 * (1 / (1 + (d : ℚ)))) := rfl
  have hxlb : (1:ℚ)/5 ≤ 3 / 5 * ((a : ℚ) / (k : ℚ)) +
      2 / 5 * (1 / (1 + (d : ℚ))) := by
    have hak : (1:ℚ)/3 ≤ (a:ℚ)/(k:ℚ) :=
      div_le_div₀ (by positivity) (by exact_mod_cast h1) hkq (by exact_mod_cast h3)
    have hd0 : (0:ℚ) ≤ 2/5 * (1/(1 + (d:ℚ))) := by positivity
    nlinarith
  have hxub : 3 / 5 * ((a : ℚ) / (k : ℚ)) + 2 / 5 * (1 / (1 + (d : ℚ))) ≤ 1 := by
    have h4 : (a:ℚ)/(k:ℚ) ≤ 1 := (div_le_one hkq).2 (by exact_mod_cast h2)
    have h5 : 1/(1 + (d:ℚ)) ≤ 1 := by
      rw [div_le_one (by positivity)]
      have : (0:ℚ) ≤ (d:ℚ) := by positivity
      linarith
    nlinarith
  constructor
  · calc (0:ℚ) < 1/5 := by norm_num
      _ = round3 (1/5) := by norm_num [round3, round_eq]
      _ ≤ confidenceOf k a d := hx ▸ round3_mono hxlb
  · calc confidenceOf k a d ≤ round3 1 := hx ▸ round3_mono hxub
      _ = 1 := by norm_num [round3, round_eq]

/-- K = 2, two appearances, depth 0 gives confidence exactly 1. -/
theorem confidenceOf_two_two_zero : confidenceOf 2 2 0 = 1 := by
  norm_num [confidenceOf, round3, round_eq]

/-- K = 2, one appearance, depth 1 gives confidence exactly 1/2. -/
theorem confidenceOf_two_one_one : confidenceOf 2 1 1 = 1/2 := by
  norm_num [confidenceOf, round3, round_eq]

/-- C4.  Every confidence in the consensus output equals the formula
`0.6 × (appearances / K) + 0.4 × (1 / (1 + depth))` rounded to 3 decimal
places and lies in `(0, 1]`; and at K = 2 the pipeline yields exactly the
confidences 1 (two appearances, depth 0) and 1/2 (one appearance,
depth 1). -/
theorem consensus_confidence (lc : String → String → Int) (k : Nat)
    (strict : Bool) (runs : List (List PAAItem))
    (hruns : ∀ run ∈ runs, ((run.map (fun i => i.norm)).Nodup))
    (hk : runs.length = k) (hk3 : k ≤ 3) :
    (∀ r ∈ runConsensusModel lc k strict runs,
      r.confidence = round3 (3 / 5 * ((r.appearances : ℚ) / (k : ℚ)) +
        2 / 5 * (1 / (1 + (r.depth : ℚ)))) ∧
      0 < r.confidence ∧ r.confidence ≤ 1) ∧
    (runConsensusModel lc 2 false [[⟨"q", "q", 0, none, "", 0⟩],
      [⟨"q", "q", 0, none, "", 0⟩]]).map (fun r => r.confidence) = [1] ∧
    (runConsensusModel lc 2 false [[⟨"q", "q", 1, none, "", 0⟩], []]).map
      (fun r => r.confidence) = [1/2] := by
  refine ⟨?_, ?_, ?_⟩
  · intro r hr
    obtain ⟨ha1, hak⟩ := appearances_bounds_of_nodup lc k strict runs hruns r hr
    rw [hk] at hak
    rcases (mem_runConsensusModel lc k strict runs r).1 hr with ⟨e, he, hth, rfl⟩
    exact ⟨rfl, confidenceOf_bounds k e.appearances e.depth ha1 hak hk3⟩
  · unfold runConsensusModel
    rw [show ((aggregate [[⟨"q", "q", 0, none, "", 0⟩],
        [⟨"q", "q", 0, none, "", 0⟩]]).filter
        (fun e => thresholdOf false 2 ≤ e.appearances)) =
        [⟨"q", "q", 0, 0, none, 2⟩] from by decide]
    rw [List.map_cons, List.map_nil, List.mergeSort_singleton,
      List.map_cons, List.map_nil]
    show [confidenceOf 2 2 0] = [1]
    rw [confidenceOf_two_two_zero]
  · unfold runConsensusModel
    rw [show ((aggregate [[⟨"q", "q", 1, none, "", 0⟩], []]).filter
        (fun e => thresholdOf false 2 ≤ e.appearances)) =
        [⟨"q", "q", 1, 0, none, 1⟩] from by decide]
    rw [List.map_cons, List.map_nil, List.mergeSort_singleton,
      List.map_cons, List.map_nil]
    show [confidenceOf 2 1 1] = [1/2]
    rw [confidenceOf_two_one_one]

/-- C4, witness: the formula conjunct applied at K = 2, two identical
runs of one question at depth 0. -/
theorem consensus_confidence_witness :
    (⟨"q", "q", 0, none, 2, confidenceOf 2 2 0⟩ :
      ConsensusPAAResult).confidence =
      round3 (3 / 5 * (((⟨"q", "q", 0, none, 2, confidenceOf 2 2 0⟩ :
        ConsensusPAAResult).appearances : ℚ) / (2 : ℚ)) +
        2 / 5 * (1 / (1 + ((⟨"q", "q", 0, none, 2, confidenceOf 2 2 0⟩ :
          ConsensusPAAResult).depth : ℚ)))) ∧
    0 < (⟨"q", "q", 0, none, 2, confidenceOf 2 2 0⟩ :
      ConsensusPAAResult).confidence ∧
    (⟨"q", "q", 0, none, 2, confidenceOf 2 2 0⟩ :
      ConsensusPAAResult).confidence ≤ 1 :=
  (consensus_confidence codePointCompare 2 false
    [[⟨"q", "q", 0, none, "", 0⟩], [⟨"q", "q", 0, none, "", 0⟩]]
    (by decide) rfl (by decide)).1
    ⟨"q", "q", 0, none, 2, confidenceOf 2 2 0⟩
    ((mem_runConsensusModel codePointCompare 2 false
        [[⟨"q", "q", 0, none, "", 0⟩], [⟨"q", "q", 0, none, "", 0⟩]]
        ⟨"q", "q", 0, none, 2, confidenceOf 2 2 0⟩).2
      ⟨⟨"q", "q", 0, 0, none, 2⟩, by decide, by decide, rfl⟩)

/-! ### C5 — idempotence of `normalize` -/

/-- A character that the normalizer leaves alone: kept by the character
class, NFKC-fixed, lower-case-fixed, and not a quote. -/
def goodChar (M : CharModel) (c : Char) : Prop :=
  isKeepM M c = true ∧ M.nfkc c = [c] ∧ M.lower c = c ∧ isQuoteChar c = false

/-- No two adjacent `\s` characters. -/
def noTwoSpaces (l : List Char) : Prop :=
  List.Chain' (fun a b => ¬(isJsSpace a = true ∧ isJsSpace b = true)) l

/-- A character-wise identity flat-map is the identity. -/
theorem flatMap_eq_self_of (f : Char → List Char) (l : List Char)
    (h : ∀ c ∈ l, f c = [c]) : l.flatMap f = l := by
  induction l with
  | nil => rfl
  | cons c cs ih =>
    rw [List.flatMap_cons, h c (by simp),
      ih (fun d hd => h d (List.mem_cons_of_mem _ hd))]
    rfl

/-- A map that fixes every element of the list is the identity. -/
theorem map_eq_self_of (f : Char → Char) (l : List Char)
    (h : ∀ c ∈ l, f c = c) : l.map f = l := by
  calc l.map f = l.map id := List.map_congr_left h
    _ = l := List.map_id l

/-- Characters of the whitespace-collapsed list come from the input or
are the single replacement space. -/
theorem mem_collapseWsAux :
    ∀ (l : List Char) (b : Bool) (c : Char),
      c ∈ collapseWsAux b l → c ∈ l ∨ c = ' ' := by
  intro l
  induction l with
  | nil => intro b c h; cases b <;> cases h
  | cons a as ih =>
    intro b c h
    cases b <;> unfold collapseWsAux at h <;> split_ifs at h with hs
    · rcases List.mem_cons.1 h with h' | h'
      · exact Or.inr h'
      · rcases ih true c h' with h'' | h''
        · exact Or.inl (List.mem_cons_of_mem _ h'')
        · exact Or.inr h''
    · rcases List.mem_cons.1 h with h' | h'
      · exact Or.inl (h' ▸ List.mem_cons_self _ _)
      · rcases ih false c h' with h'' | h''
        · exact Or.inl (List.mem_cons_of_mem _ h'')
        · exact Or.inr h''
    · rcases ih true c h with h' | h'
      · exact Or.inl (List.mem_cons_of_mem _ h')
      · exact Or.inr h'
    · rcases List.mem_cons.1 h with h' | h'
      · exact Or.inl (h' ▸ List.mem_cons_self _ _)
      · rcases ih false c h' with h'' | h''
        · exact Or.inl (List.mem_cons_of_mem _ h'')
        · exact Or.inr h''

/-- Characters of the trimmed list come from the input. -/
theorem mem_trimSp (l : List Char) (c : Char) (h : c ∈ trimSp l) : c ∈ l := by
  unfold trimSp at h
  rw [List.mem_reverse] at h
  have h1 := (List.dropWhile_suffix (l := (l.dropWhile isJsSpace).reverse)
    isJsSpace).subset h
  rw [List.mem_reverse] at h1
  exact (List.dropWhile_suffix isJsSpace).subset h1

/-- The head of a `dropWhile` result fails the predicate. -/
theorem head?_dropWhile_false (p : Char → Bool) (l : List Char) (c : Char)
    (h : (l.dropWhile p).head? = some c) : p c = false := by
  have h2 := List.head?_dropWhile_not p l
  rw [h] at h2
  exact h2

/-- `dropWhile` only removes a prefix, so a nonempty result has the same
last element as the input. -/
theorem getLast?_dropWhile_ne (p : Char → Bool) :
    ∀ (l : List Char), l.dropWhile p ≠ [] →
      (l.dropWhile p).getLast? = l.getLast? := by
  intro l
  induction l with
  | nil => intro h; exact absurd rfl h
  | cons a as ih =>
    intro h
    by_cases hp : p a
    · rw [List.dropWhile_cons_of_pos hp] at h ⊢
      have has : as ≠ [] := by
        intro h0
        rw [h0] at h
        exact h rfl
      rw [ih h]
      cases as with
      | nil => exact absurd rfl has
      | cons b bs => rw [List.getLast?_cons_cons]
    · rw [List.dropWhile_cons_of_neg hp]

/-- The last character of a trimmed list is not whitespace. -/
theorem trimSp_getLast_not_space (l : List Char) (c : Char)
    (h : (trimSp l).getLast? = some c) : isJsSpace c = false := by
  unfold trimSp at h
  rw [List.getLast?_reverse] at h
  exact head?_dropWhile_false _ _ _ h

/-- The first character of a trimmed list is not whitespace. -/
theorem trimSp_head_not_space (l : List Char) (c : Char)
    (h : (trimSp l).head? = some c) : isJsSpace c = false := by
  unfold trimSp at h
  rw [List.head?_reverse] at h
  have hne : (l.dropWhile isJsSpace).reverse.dropWhile isJsSpace ≠ [] := by
    intro h0
    rw [h0] at h
    cases h
  rw [getLast?_dropWhile_ne _ _ hne, List.getLast?_reverse] at h
  exact head?_dropWhile_false _ _ _ h

/-- `dropWhile` is the identity when the head already fails the
predicate. -/
theorem dropWhile_eq_self_of_head (p : Char → Bool) (l : List Char)
    (h : ∀ c, l.head? = some c → p c = false) : l.dropWhile p = l := by
  cases l with
  | nil => rfl
  | cons a as => rw [List.dropWhile_cons_of_neg (by simp [h a rfl])]

/-- Trimming is the identity on lists with no whitespace at either
end. -/
theorem trimSp_eq_self (l : List Char)
    (hh : ∀ c, l.head? = some c → isJsSpace c = false)
    (hl : ∀ c, l.getLast? = some c → isJsSpace c = false) : trimSp l = l := by
  unfold trimSp
  rw [dropWhile_eq_self_of_head _ l hh,
    dropWhile_eq_self_of_head _ l.reverse
      (fun c hc => hl c (by rwa [List.head?_reverse] at hc)),
    List.reverse_reverse]

/-- Trimming is idempotent. -/
theorem trimSp_idem (l : List Char) : trimSp (trimSp l) = trimSp l :=
  trimSp_eq_self _ (trimSp_head_not_space l) (trimSp_getLast_not_space l)

/-- After a space has just been emitted, the collapsed rest starts with a
non-space character. -/
theorem collapseWsAux_head_not_space :
    ∀ (l : List Char) (c : Char),
      (collapseWsAux true l).head? = some c → isJsSpace c = false := by
  intro l
  induction l with
  | nil => intro c h; cases h
  | cons a as ih =>
    intro c h
    unfold collapseWsAux at h
    split_ifs at h with hs
    · exact ih c h
    · simp only [List.head?_cons, Option.some.injEq] at h
      rw [← h]
      exact Bool.eq_false_iff.2 hs

/-- The collapsed list has no two adjacent whitespace characters. -/
theorem collapseWsAux_chain :
    ∀ (l : List Char) (b : Bool), noTwoSpaces (collapseWsAux b l) := by
  intro l
  induction l with
  | nil => intro b; cases b <;> exact List.chain'_nil
  | cons a as ih =>
    intro b
    cases b <;> unfold collapseWsAux noTwoSpaces <;> split_ifs with hs
    · apply List.chain'_cons'.2
      refine ⟨?_, ih true⟩
      intro y hy hcon
      have hf := collapseWsAux_head_not_space as y hy
      rw [hcon.2] at hf
      cases hf
    · apply List.chain'_cons'.2
      refine ⟨?_, ih false⟩
      intro y _ hcon
      exact hs hcon.1
    · exact ih true
    · apply List.chain'_cons'.2
      refine ⟨?_, ih false⟩
      intro y _ hcon
      exact hs hcon.1

/-- Every whitespace character of the collapsed list is the plain
space. -/
theorem collapseWsAux_space_char :
    ∀ (l : List Char) (b : Bool) (c : Char),
      c ∈ collapseWsAux b l → isJsSpace c = true → c = ' ' := by
  intro l
  induction l with
  | nil => intro b c h; cases b <;> cases h
  | cons a as ih =>
    intro b c h hsc
    cases b <;> unfold collapseWsAux at h <;> split_ifs at h with hs
    · rcases List.mem_cons.1 h with h' | h'
      · exact h'
      · exact ih true c h' hsc
    · rcases List.mem_cons.1 h with h' | h'
      · rw [h'] at hsc
        exact absurd hsc hs
      · exact ih false c h' hsc
    · exact ih true c h hsc
    · rcases List.mem_cons.1 h with h' | h'
      · rw [h'] at hsc
        exact absurd hsc hs
      · exact ih false c h' hsc

/-- Collapsing is the identity on lists whose whitespace is already
collapsed (no adjacent whitespace, all whitespace the plain space, and —
when the flag claims a space was just emitted — a non-space head). -/
theorem collapseWsAux_eq_self :
    ∀ (l : List Char), noTwoSpaces l →
      (∀ c ∈ l, isJsSpace c = true → c = ' ') →
      ∀ (b : Bool), (b = true → ∀ c, l.head? = some c → isJsSpace c = false) →
      collapseWsAux b l = l := by
  intro l
  induction l with
  | nil => intro _ _ b _; cases b <;> rfl
  | cons a as ih =>
    intro hch hsp b hb
    unfold noTwoSpaces at hch
    cases b <;> unfold collapseWsAux <;> split_ifs with hs
    · have ha : a = ' ' := hsp a (by simp) hs
      rw [← ha]
      congr 1
      refine ih ((List.chain'_cons'.1 hch).2)
        (fun c hc hsc => hsp c (List.mem_cons_of_mem _ hc) hsc) true ?_
      intro _ c hc
      have hrel := (List.chain'_cons'.1 hch).1 c hc
      cases hcs : isJsSpace c
      · rfl
      · exact absurd ⟨hs, hcs⟩ hrel
    · congr 1
      exact ih ((List.chain'_cons'.1 hch).2)
        (fun c hc hsc => hsp c (List.mem_cons_of_mem _ hc) hsc) false
        (fun h => absurd h Bool.false_ne_true)
    · have := hb rfl a rfl
      rw [hs] at this
      cases this
    · congr 1
      exact ih ((List.chain'_cons'.1 hch).2)
        (fun c hc hsc => hsp c (List.mem_cons_of_mem _ hc) hsc) false
        (fun h => absurd h Bool.false_ne_true)

/-- Trimming preserves the no-adjacent-whitespace property. -/
theorem noTwoSpaces_trimSp (l : List Char) (h : noTwoSpaces l) :
    noTwoSpaces (trimSp l) := by
  unfold trimSp
  unfold noTwoSpaces at h ⊢
  have hsym : ∀ {u : List Char},
      List.Chain' (fun a b => ¬(isJsSpace a = true ∧ isJsSpace b = true)) u →
      List.Chain' (fun a b => ¬(isJsSpace a = true ∧ isJsSpace b = true))
        u.reverse := by
    intro u hu
    apply List.chain'_reverse.2
    exact hu.imp (fun {a b} hab hcon => hab ⟨hcon.2, hcon.1⟩)
  exact hsym ((hsym (h.suffix (List.dropWhile_suffix _))).suffix
    (List.dropWhile_suffix _))

/-- C5.  Idempotence of `normalize`: over any character model whose
tables satisfy the Unicode facts — lower-casing is idempotent and fixes
the space, an NFKC output character stays NFKC-fixed after lower-casing,
NFKC fixes the space, and quote characters are neither letters, numbers,
whitespace nor the question mark — normalizing twice equals normalizing
once, for every string.  (The real NFKC/lowercase/`\p{L}`/`\p{N}` tables
satisfy these hypotheses; the witness instantiates the Basic Latin
restriction.) -/
theorem normalize_idempotent (M : CharModel)
    (hlow : ∀ c, M.lower (M.lower c) = M.lower c)
    (hsp : M.lower ' ' = ' ')
    (hnf : ∀ c d, d ∈ M.nfkc c → M.nfkc (M.lower d) = [M.lower d])
    (hnsp : M.nfkc ' ' = [' '])
    (hq : ∀ c, isQuoteChar c = true → isKeepM M c = false)
    (s : List Char) :
    normalize M (normalize M s) = normalize M s := by
  have hspace : isJsSpace ' ' = true := by decide
  have hgoodsp : goodChar M ' ' :=
    ⟨by simp [isKeepM, hspace], hnsp, hsp, by decide⟩
  have hw : ∀ c ∈ List.map (keepOrSpace M)
      (List.map foldQuote (List.map M.lower (s.flatMap M.nfkc))),
      goodChar M c := by
    intro c hc
    rcases List.mem_map.1 hc with ⟨c0, hc0, rfl⟩
    by_cases hk : isKeepM M c0 = true
    · have hks : keepOrSpace M c0 = c0 := by simp [keepOrSpace, hk]
      rw [hks]
      rcases List.mem_map.1 hc0 with ⟨c1, hc1, rfl⟩
      by_cases hquote : isQuoteChar c1 = true
      · have h34 : foldQuote c1 = Char.ofNat 34 := by simp [foldQuote, hquote]
        rw [h34] at hk
        rw [hq (Char.ofNat 34) (by decide)] at hk
        cases hk
      · have hfq : foldQuote c1 = c1 := by
          simp [foldQuote, Bool.eq_false_iff.2 hquote]
        rw [hfq] at hk ⊢
        rcases List.mem_map.1 hc1 with ⟨d, hd, rfl⟩
        rcases List.mem_flatMap.1 hd with ⟨a, _, hda⟩
        exact ⟨hk, hnf a d hda, hlow d, Bool.eq_false_iff.2 hquote⟩
    · have hks : keepOrSpace M c0 = ' ' := by simp [keepOrSpace, hk]
      rw [hks]
      exact hgoodsp
  have hout : ∀ c ∈ normalize M s, goodChar M c := by
    intro c hc
    unfold normalize at hc
    have hc1 := mem_trimSp _ _ hc
    rcases mem_collapseWsAux _ _ _ hc1 with h | h
    · exact hw c h
    · rw [h]
      exact hgoodsp
  have hchain : noTwoSpaces (normalize M s) := by
    unfold normalize
    exact noTwoSpaces_trimSp _ (collapseWsAux_chain _ _)
  have hspchar : ∀ c ∈ normalize M s, isJsSpace c = true → c = ' ' := by
    intro c hc hs
    unfold normalize at hc
    exact collapseWsAux_space_char _ _ _ (mem_trimSp _ _ hc) hs
  have e1 : (normalize M s).flatMap M.nfkc = normalize M s :=
    flatMap_eq_self_of _ _ (fun c hc => (hout c hc).2.1)
  have e2 : (normalize M s).map M.lower = normalize M s :=
    map_eq_self_of _ _ (fun c hc => (hout c hc).2.2.1)
  have e3 : (normalize M s).map foldQuote = normalize M s :=
    map_eq_self_of _ _ (fun c hc => by
      simp [foldQuote, (hout c hc).2.2.2])
  have e4 : (normalize M s).map (keepOrSpace M) = normalize M s :=
    map_eq_self_of _ _ (fun c hc => by
      simp [keepOrSpace, (hout c hc).1])
  have e5 : collapseWs (normalize M s) = normalize M s := by
    unfold collapseWs
    exact collapseWsAux_eq_self _ hchain hspchar false
      (fun h => absurd h Bool.false_ne_true)
  have e6 : trimSp (normalize M s) = normalize M s := trimSp_idem _
  calc normalize M (normalize M s)
      = trimSp (collapseWs (List.map (keepOrSpace M)
          (List.map foldQuote
            (List.map M.lower ((normalize M s).flatMap M.nfkc))))) := rfl
    _ = normalize M s := by rw [e1, e2, e3, e4, e5, e6]

/-- Character code 55296 bounds the ASCII computations below, so
`Char.ofNat` round-trips on them. -/
theorem toNat_ofNat_lt (n : Nat) (h : n < 55296) :
    (Char.ofNat n).toNat = n := by
  rw [Char.ofNat, dif_pos (Or.inl h)]
  simp [Char.ofNatAux, Char.toNat, UInt32.toNat]

/-- The modelled `toLowerCase` step is idempotent. -/
theorem jsToLower_idem (c : Char) : jsToLower (jsToLower c) = jsToLower c := by
  unfold jsToLower
  by_cases h : (65 ≤ c.toNat && c.toNat ≤ 90) = true
  · rw [if_pos h]
    simp only [Bool.and_eq_true, decide_eq_true_eq] at h
    have ht : (Char.ofNat (c.toNat + 32)).toNat = c.toNat + 32 :=
      toNat_ofNat_lt _ (by omega)
    rw [if_neg (by simp [ht]; omega)]
  · rw [if_neg h, if_neg h]

/-- Quote characters are not kept by the Basic Latin model's character
class. -/
theorem ascii_quote_not_keep (c : Char) (hc : isQuoteChar c = true) :
    isKeepM asciiCharModel c = false := by
  simp only [isQuoteChar, Bool.or_eq_true, decide_eq_true_eq] at hc
  simp only [isKeepM, asciiCharModel, isJsSpace, Bool.or_eq_false_iff,
    Bool.and_eq_false_iff, decide_eq_false_iff_not, Bool.and_eq_false_imp,
    decide_eq_true_eq]
  omega

/-- C5, witness: the idempotence theorem applied at the Basic Latin model
and a concrete string with quotes, punctuation and repeated spaces. -/
theorem normalize_idempotent_witness :
    normalize asciiCharModel
      (normalize asciiCharModel (("  What is «this»?  ").data)) =
    normalize asciiCharModel (("  What is «this»?  ").data) :=
  normalize_idempotent asciiCharModel jsToLower_idem (by decide)
    (fun _ _ _ => rfl) rfl ascii_quote_not_keep (("  What is «this»?  ").data)

end PaaMiner
